import Mathlib

/-!
Verification development for the jira-mcp cross-reference aggregation engine
(`index.js`).  JavaScript strings are modelled as lists of characters
(`Str := List Char`); JavaScript `null`/`undefined` string fields are modelled
with `Option Str`, where `some []` plays the role of the (falsy) empty string.
All definitions are direct translations of the JavaScript source; platform
builtins (`new URL`, `Number`, regular-expression matching) are modelled at the
level of their documented behaviour on the inputs the program feeds them.
-/

set_option autoImplicit false

abbrev Str := List Char

def strLit (s : String) : Str := s.toList

def newlineChar : Char := Char.ofNat 10

/-- Character class `[A-Z]`. -/
def isUpperAZ (c : Char) : Bool := 'A' ≤ c && c ≤ 'Z'

/-- Character class `[a-z]`. -/
def isLowerAZ (c : Char) : Bool := 'a' ≤ c && c ≤ 'z'

/-- Character class `[0-9]` (regex `\d`). -/
def isDigit09 (c : Char) : Bool := '0' ≤ c && c ≤ '9'

/-- Character class `[A-Z0-9]`. -/
def isUpperDigit (c : Char) : Bool := isUpperAZ c || isDigit09 c

/-- Regex word character `\w` = `[A-Za-z0-9_]`, used by the `\b` boundary. -/
def isWordChar (c : Char) : Bool :=
  isUpperAZ c || isLowerAZ c || isDigit09 c || c = '_'

/-- Whitespace, as used by regex `\s`, `String.prototype.trim` and friends.
The model covers space, tab, CR and LF, the forms occurring in ticket text. -/
def isWs (c : Char) : Bool := c = ' ' || c = '\t' || c = '\n' || c = '\r'

/-- JavaScript truthiness of a string-or-absent value: `undefined`, `null`
and the empty string are falsy. -/
def jsTruthy (o : Option Str) : Bool :=
  match o with
  | none => false
  | some s => decide (s ≠ [])

/-- `String.prototype.split(sep)` for a single-character separator. -/
def splitOnCharAux (sep : Char) : Str → Str → List Str
  | [], acc => [acc.reverse]
  | c :: rest, acc =>
    if c = sep then acc.reverse :: splitOnCharAux sep rest []
    else splitOnCharAux sep rest (c :: acc)

def splitOnChar (sep : Char) (s : Str) : List Str := splitOnCharAux sep s []

/-- `String.prototype.trimStart`. -/
def trimLeftWS (s : Str) : Str := s.dropWhile isWs

/-- `String.prototype.trim`. -/
def trimWS (s : Str) : Str :=
  ((s.dropWhile isWs).reverse.dropWhile isWs).reverse

/-- One step of JavaScript `Set` insertion (insertion order, duplicates
skipped). -/
def addUnique (acc : List Str) (k : Str) : List Str :=
  if k ∈ acc then acc else acc ++ [k]

/-- `[...new Set(l)]`: deduplicate keeping the first occurrence of each
element, preserving insertion order. -/
def jsSetList (l : List Str) : List Str := l.foldl addUnique []

/-- `String.prototype.includes(needle)`. -/
def containsSub (needle : Str) : Str → Bool
  | [] => decide (needle = [])
  | c :: rest => List.isPrefixOf needle (c :: rest) || containsSub needle rest

/-! ## The ADF document model (`extractText`, index.js lines 130-176)

A node of the JSON document tree, keeping exactly the fields `extractText`
and `buildCommentADF` touch: `type`, `text`, `marks` (each mark with its
`type` and `attrs.href`), `attrs.url`, `attrs.text` / `attrs.id`, and
`content`.  `children = none` models an absent/null `content` field;
`some []` models an (truthy) empty array. -/

structure MarkJs where
  ty : Str
  href : Option Str

inductive AdfV where
  | node (ty : Str) (txt : Option Str) (marks : List MarkJs)
      (attrUrl : Option Str) (attrText : Option Str)
      (children : Option (List AdfV))

def AdfV.ty : AdfV → Str
  | .node t _ _ _ _ _ => t

def AdfV.children : AdfV → Option (List AdfV)
  | .node _ _ _ _ _ c => c

/-- The hrefs pushed for one text node's marks: `mark.type === "link"` with a
truthy `mark.attrs?.href`. -/
def linkHrefs (marks : List MarkJs) : List Str :=
  marks.foldr
    (fun m acc =>
      if m.ty = strLit "link" && jsTruthy m.href then m.href.getD [] :: acc
      else acc) []

def cardTys : List Str :=
  [strLit "inlineCard", strLit "blockCard", strLit "embedCard"]

mutual

/-- `extractText(content, urls)` on a node argument: iterate `content.content`
when present, threading the shared `urls` accumulator. -/
def extractNode : AdfV → List Str → Str × List Str
  | .node _ _ _ _ _ none, urls => ([], urls)
  | .node _ _ _ _ _ (some cs), urls => extractKids cs [] urls

/-- The `for (const node of content.content)` loop body of `extractText`,
dispatching on `node.type` in source order. -/
def extractKids : List AdfV → Str → List Str → Str × List Str
  | [], text, urls => (text, urls)
  | n :: rest, text, urls =>
    match n with
    | .node ty txt marks aUrl aText children =>
      if ty = strLit "text" then
        extractKids rest (text ++ txt.getD []) (urls ++ linkHrefs marks)
      else if ty = strLit "paragraph" then
        let r := extractNode (.node ty txt marks aUrl aText children) urls
        extractKids rest (text ++ r.1 ++ [newlineChar]) r.2
      else if ty = strLit "hardBreak" then
        extractKids rest (text ++ [newlineChar]) urls
      else if ty = strLit "mention" then
        extractKids rest
          (text ++ '@' :: (if jsTruthy aText then aText.getD [] else strLit "user"))
          urls
      else if ty = strLit "mediaGroup" || ty = strLit "mediaSingle" then
        extractKids rest (text ++ strLit "[image attachment]" ++ [newlineChar]) urls
      else if ty ∈ cardTys then
        if jsTruthy aUrl then
          extractKids rest (text ++ aUrl.getD [] ++ [newlineChar])
            (urls ++ [aUrl.getD []])
        else
          extractKids rest text urls
      else if children.isSome then
        let r := extractNode (.node ty txt marks aUrl aText children) urls
        extractKids rest (text ++ r.1) r.2
      else
        extractKids rest text urls

end

/-- The possible first arguments of `extractText`: null/undefined, a plain
string, or a document node. -/
inductive ExtractInput where
  | nullI
  | strI (s : Str)
  | nodeI (n : AdfV)

/-- `extractText(content, urls)` (index.js lines 130-176). -/
def extractText : ExtractInput → List Str → Str × List Str
  | .nullI, urls => ([], urls)
  | .strI s, urls => (s, urls)
  | .nodeI n, urls => extractNode n urls

/-! ## Reference extractor (`findJiraTicketKeys`, index.js lines 315-339)

The two regexes are modelled as character-level scanners with JavaScript
`RegExp.exec` semantics: repeatedly find the leftmost match at or after the
current position, then resume at the end of the match. -/

/-- Match the core key pattern `[A-Z][A-Z0-9]+-\d+` (greedy) at the head of
the input; returns the capture and the remaining input.  No backtracking is
needed: `-` is not in `[A-Z0-9]`, so only the maximal runs can match. -/
def matchKeyCore (l : Str) : Option (Str × Str) :=
  match l with
  | [] => none
  | c :: rest =>
    if isUpperAZ c then
      let run := rest.takeWhile isUpperDigit
      let r1 := rest.dropWhile isUpperDigit
      if run = [] then none
      else
        match r1 with
        | h :: r2 =>
          if h = '-' then
            let ds := r2.takeWhile isDigit09
            let r3 := r2.dropWhile isDigit09
            if ds = [] then none else some (c :: run ++ '-' :: ds, r3)
          else none
        | [] => none
    else none

/-- Scanner for `/\b([A-Z][A-Z0-9]+-\d+)\b/g`.  `prevWord` tracks whether the
preceding character is a word character (for the leading `\b`); the trailing
`\b` requires the next character to be a non-word character or the end.  The
fuel argument is an upper bound on the number of scan steps (the input
length); every step consumes at least one character. -/
def scanKeysAux : Nat → Bool → Str → List Str
  | 0, _, _ => []
  | _ + 1, _, [] => []
  | fuel + 1, prevWord, c :: rest =>
    if prevWord then scanKeysAux fuel (isWordChar c) rest
    else
      match matchKeyCore (c :: rest) with
      | some (cap, r3) =>
        if (match r3 with | [] => true | d :: _ => !isWordChar d) then
          cap :: scanKeysAux fuel true r3
        else scanKeysAux fuel (isWordChar c) rest
      | none => scanKeysAux fuel (isWordChar c) rest

def scanKeys (s : Str) : List Str := scanKeysAux s.length false s

/-- Strip a literal prefix. -/
def stripPre (pre : Str) (l : Str) : Option Str :=
  match pre, l with
  | [], rest => some rest
  | _ :: _, [] => none
  | p :: ps, c :: cs => if c = p then stripPre ps cs else none

/-- The candidate splits of `[^\s]+\/browse\/([A-Z][A-Z0-9]+-\d+)`: after
consuming at least one non-whitespace character, the remainder may start with
`/browse/` followed by a key.  Candidates are listed with the shortest
`[^\s]+` part first; greediness picks the last one. -/
def browseCandidates : Str → List (Str × Str)
  | [] => []
  | c :: rest =>
    if isWs c then []
    else
      match (stripPre (strLit "/browse/") rest).bind matchKeyCore with
      | some kr => kr :: browseCandidates rest
      | none => browseCandidates rest

/-- Match `https?:\/\/[^\s]+\/browse\/([A-Z][A-Z0-9]+-\d+)` at the head of
the input; returns the captured key and the remainder after the match. -/
def matchBrowseUrl (l : Str) : Option (Str × Str) :=
  (stripPre (strLit "http") l).bind fun r =>
    (match r with
     | 's' :: r2 => stripPre (strLit "://") r2
     | _ => stripPre (strLit "://") r).bind fun m =>
      (browseCandidates m).getLast?

/-- Scanner for the browse-URL regex (no word boundaries). -/
def scanBrowseUrlsAux : Nat → Str → List Str
  | 0, _ => []
  | _ + 1, [] => []
  | fuel + 1, c :: rest =>
    match matchBrowseUrl (c :: rest) with
    | some (cap, after) => cap :: scanBrowseUrlsAux fuel after
    | none => scanBrowseUrlsAux fuel rest

def scanBrowseUrls (s : Str) : List Str := scanBrowseUrlsAux s.length s

/-- `findJiraTicketKeys(text, currentKey)` (index.js lines 315-339): URL
matches first, then bare-key matches, each compared against `currentKey`
with `!==` before insertion into a `Set`; returns the set in insertion
order. -/
def findJiraTicketKeys (text : Str) (currentKey : Option Str) : List Str :=
  if text = [] then []
  else
    jsSetList
      ((scanBrowseUrls text).filter (fun k => some k ≠ currentKey) ++
       (scanKeys text).filter (fun k => some k ≠ currentKey))

/-! ## Figma URL detection (`findFigmaUrls`, index.js lines 343-354) -/

def isAlnum (c : Char) : Bool := isUpperAZ c || isLowerAZ c || isDigit09 c

def singleQuoteChar : Char := Char.ofNat 39
def doubleQuoteChar : Char := Char.ofNat 34

/-- Character class `[^\s)>\]"']` of the Figma URL regex tail. -/
def isFigmaTailChar (c : Char) : Bool :=
  !(isWs c || c = ')' || c = '>' || c = ']' || c = doubleQuoteChar ||
    c = singleQuoteChar)

/-- Strip `(?:file|design|proto)\/`. -/
def figmaKeywordAt (l : Str) : Option Str :=
  match stripPre (strLit "file/") l with
  | some r => some r
  | none =>
    match stripPre (strLit "design/") l with
    | some r => some r
    | none => stripPre (strLit "proto/") l

/-- Match
`https:\/\/(?:www\.)?figma\.com\/(?:file|design|proto)\/([a-zA-Z0-9]+)\/[^\s)>\]"']*`
at the head of the input and return the remainder after the match (the whole
match `match[0]` is recovered from the consumed length). -/
def matchFigmaUrl (l : Str) : Option Str :=
  (stripPre (strLit "https://") l).bind fun r0 =>
    let r1 := (stripPre (strLit "www.") r0).getD r0
    (stripPre (strLit "figma.com/") r1).bind fun r2 =>
      (figmaKeywordAt r2).bind fun r3 =>
        let key := r3.takeWhile isAlnum
        let r4 := r3.dropWhile isAlnum
        if key = [] then none
        else
          match r4 with
          | c :: r5 => if c = '/' then some (r5.dropWhile isFigmaTailChar) else none
          | [] => none

def scanFigmaUrlsAux : Nat → Str → List Str
  | 0, _ => []
  | _ + 1, [] => []
  | fuel + 1, c :: rest =>
    match matchFigmaUrl (c :: rest) with
    | some after =>
      ((c :: rest).take ((c :: rest).length - after.length)) ::
        scanFigmaUrlsAux fuel after
    | none => scanFigmaUrlsAux fuel rest

/-- `findFigmaUrls(text)` (index.js lines 343-354): collect the full matches
of the Figma URL regex, then dedupe with a `Set`. -/
def findFigmaUrls (text : Str) : List Str :=
  if text = [] then [] else jsSetList (scanFigmaUrlsAux text.length text)

/-! ## `parseFigmaUrl` (index.js lines 356-379) and the `new URL` builtin -/

structure UrlParts where
  pathname : Str
  query : Str

def isSchemeStart (c : Char) : Bool := isUpperAZ c || isLowerAZ c
def isSchemeChar (c : Char) : Bool :=
  isAlnum c || c = '+' || c = '-' || c = '.'

/-- Model of the WHATWG `new URL(url)` constructor (a platform builtin, not
repository code), restricted to absolute `scheme://host/path?query` URLs:
`none` models the `TypeError: Invalid URL` thrown when the input does not
start with a scheme followed by `://` and a nonempty host.  Fragments are
stripped; percent-decoding is not modelled (no program input relies on
it). -/
def parseURL (s : Str) : Option UrlParts :=
  match s with
  | [] => none
  | c :: rest =>
    if isSchemeStart c then
      let rest2 := rest.dropWhile isSchemeChar
      match stripPre (strLit "://") rest2 with
      | some afterScheme =>
        let notHostEnd : Char → Bool := fun d => !(d = '/' || d = '?' || d = '#')
        let host := afterScheme.takeWhile notHostEnd
        let more := afterScheme.dropWhile notHostEnd
        if host = [] then none
        else
          let notPathEnd : Char → Bool := fun d => !(d = '?' || d = '#')
          let path0 := more.takeWhile notPathEnd
          let afterPath := more.dropWhile notPathEnd
          let query :=
            match afterPath with
            | q :: qs => if q = '?' then qs.takeWhile (fun d => d ≠ '#') else []
            | [] => []
          some { pathname := if path0 = [] then ['/'] else path0, query := query }
      | none => none
    else none

/-- `url.searchParams.get(key)`: the value of the first `key=value` pair of
the query string (`key` alone yields the empty value); `none` when absent. -/
def searchParamsGet (query : Str) (key : Str) : Option Str :=
  let pairs := (splitOnChar '&' query).filter (fun p => p ≠ [])
  match pairs.find? (fun p => p.takeWhile (fun c => c ≠ '=') = key) with
  | some p =>
    some (match p.dropWhile (fun c => c ≠ '=') with
          | _ :: vs => vs
          | [] => [])
  | none => none

inductive UrlThrow where
  | invalidURL (s : Str)
deriving DecidableEq

structure DesignRef where
  fileKey : Str
  nodeId : Option Str
deriving DecidableEq

/-- The `for` loop of `parseFigmaUrl`: at the first path part equal to
`file`, `design` or `proto`, grab the next part (possibly absent) and
break. -/
def fileKeyLoop : List Str → Option (Option Str)
  | [] => none
  | p :: rest =>
    if p = strLit "file" || p = strLit "design" || p = strLit "proto" then
      some rest.head?
    else fileKeyLoop rest

/-- The body of `parseFigmaUrl` after the URL constructor has succeeded:
the first recognized keyword segment's successor becomes `fileKey` (falsy →
`null` result), and the `node-id` query parameter, when truthy, has its
hyphens globally replaced by colons. -/
def parseFigmaUrlParsed (u : UrlParts) : Option DesignRef :=
  let pathParts := splitOnChar '/' u.pathname
  let fileKey : Option Str :=
    match fileKeyLoop pathParts with
    | none => none
    | some next => next
  if jsTruthy fileKey then
    let rawNodeId := searchParamsGet u.query (strLit "node-id")
    let nodeId : Option Str :=
      if jsTruthy rawNodeId then
        some ((rawNodeId.getD []).map (fun c => if c = '-' then ':' else c))
      else none
    some { fileKey := fileKey.getD [], nodeId := nodeId }
  else none

/-- `parseFigmaUrl(url)` (index.js lines 356-379).  `new URL(url)` throws on
an unparseable URL (`Except.error`); otherwise see
`parseFigmaUrlParsed`. -/
def parseFigmaUrl (url : Str) : Except UrlThrow (Option DesignRef) :=
  match parseURL url with
  | none => .error (.invalidURL url)
  | some u => .ok (parseFigmaUrlParsed u)

/-! ## `figmaFetchWithRetry` (index.js lines 383-418) -/

structure JsResponse where
  status : Nat
  retryAfter : Option Str
deriving DecidableEq

/-- `response.ok`: status in the range 200-299. -/
def responseOk (r : JsResponse) : Bool := 200 ≤ r.status && r.status ≤ 299

/-- JavaScript `Number(s)` restricted to optionally-signed decimal-integer
strings (the only shapes a `retry-after` header takes): whitespace is
trimmed, the empty string is 0, anything non-numeric is NaN (`none`). -/
def jsStrToNumber (s : Str) : Option Int :=
  let t := trimWS s
  if t = [] then some 0
  else
    let neg := t.head? = some '-'
    let core := match t with
      | c :: rest => if c = '+' || c = '-' then rest else t
      | [] => t
    if core ≠ [] && core.all isDigit09 then
      let n : Nat := core.foldl (fun acc c => acc * 10 + (c.toNat - 48)) 0
      some (if neg then -(n : Int) else (n : Int))
    else none

/-- `Number(response.headers.get("retry-after")) || 60` (index.js line 401):
an absent header is `null` (`Number(null) = 0`), NaN and 0 are falsy, so
absent, unparseable and zero all become 60. -/
def retryAfterSecOf (h : Option Str) : Int :=
  match (match h with | none => some 0 | some s => jsStrToNumber s) with
  | none => 60
  | some v => if v = 0 then 60 else v

def natToChars (n : Nat) : Str := Nat.toDigits 10 n

/-- JavaScript decimal rendering of an integer-valued number. -/
def intToChars (i : Int) : Str :=
  if i < 0 then '-' :: natToChars i.natAbs else natToChars i.toNat

/-- `Math.round(sec / 3600)` = floor(sec/3600 + 1/2). -/
def jsRoundDiv3600 (sec : Int) : Int := Int.fdiv (2 * sec + 3600) 7200

/-- The `waitTime` string of index.js lines 405-408. -/
def renderWaitTime (sec : Int) : Str :=
  if sec > 3600 then
    intToChars (jsRoundDiv3600 sec) ++ strLit " hours (monthly limit reached)"
  else
    intToChars sec ++ strLit " seconds"

inductive FetchResult where
  | response (r : JsResponse)
  | rateLimited (retryAfter : Str)
deriving DecidableEq

/-- The `while (true)` loop of `figmaFetchWithRetry` (index.js lines
390-417), with the sequence of transport responses supplied as a stream
`resp` indexed by request number.  Returns the result, the list of performed
waits (in seconds, in order) and the number of requests issued.  The
structurally decreasing `budget` is the remaining retry allowance
`maxRetries - attempts`; the source guard `attempts++ >= maxRetries` holds
exactly when the budget is exhausted. -/
def figmaFetchLoop (resp : Nat → JsResponse) (maxWaitSec : Int) :
    Nat → Nat → FetchResult × List Int × Nat
  | i, 0 =>
    let r := resp i
    if responseOk r then (.response r, [], 1)
    else if r.status = 429 then
      (.rateLimited (renderWaitTime (retryAfterSecOf r.retryAfter)), [], 1)
    else (.response r, [], 1)
  | i, b + 1 =>
    let r := resp i
    if responseOk r then (.response r, [], 1)
    else if r.status = 429 then
      let w := retryAfterSecOf r.retryAfter
      if w > maxWaitSec then (.rateLimited (renderWaitTime w), [], 1)
      else
        let out := figmaFetchLoop resp maxWaitSec (i + 1) b
        (out.1, w :: out.2.1, out.2.2 + 1)
    else (.response r, [], 1)

/-- `figmaFetchWithRetry(url, options, {maxRetries = 3, maxWaitSec = 30})`. -/
def figmaFetchWithRetry (resp : Nat → JsResponse) (maxRetries : Nat)
    (maxWaitSec : Int) : FetchResult × List Int × Nat :=
  figmaFetchLoop resp maxWaitSec 0 maxRetries

def defaultMaxRetries : Nat := 3
def defaultMaxWaitSec : Int := 30

/-! ## The asset export pipeline (`fetchFigmaDesign`, index.js lines 420-580)

Remote services are supplied as oracles in a `FigmaEnv`; the model returns,
next to the function's result, the trace of image downloads and file writes
it performs, so that caching behaviour is observable.  `Except.error` models
an exception escaping the function (only `new URL` inside `parseFigmaUrl`,
which is invoked before the `try` block, can do so). -/

/-- Outcome of a plain `fetch(imageUrl)` download: 2xx, non-2xx, or a thrown
transport error. -/
inductive DlRes where
  | ok
  | notOk
  | throws

structure BBox where
  w : Int
  h : Int

structure ChildNode where
  id : Str
  name : Str
  ty : Str
  bbox : Option BBox

structure NodeDoc where
  name : Str
  bbox : Option BBox
  children : Option (List ChildNode)

/-- Result of one `figmaFetchWithRetry` call as seen by `fetchFigmaDesign`:
either the `rateLimited` marker object or a response with a status. -/
inductive RetryRes where
  | limited (retryAfter : Str)
  | resp (status : Nat)

def retryResOk : RetryRes → Bool
  | .limited _ => false
  | .resp s => 200 ≤ s && s ≤ 299

structure FigmaEnv where
  configured : Bool
  filesRes : RetryRes
  fileName : Str
  nodesRes : RetryRes
  nodeDoc : Option NodeDoc
  imagesRes : RetryRes
  imageUrls : Str → Option Str
  download : Str → DlRes
  fsExists : Str → Bool

inductive FigmaEff where
  | download (url : Str)
  | write (path : Str)
deriving DecidableEq

/-- `childId.replace(/[^a-zA-Z0-9-]/g, "_")` (index.js lines 527-530, 559). -/
def sanitizeId (s : Str) : Str :=
  s.map (fun c => if isAlnum c || c = '-' then c else '_')

def figmaExportsDir : Str := strLit "HOME/.config/figma-mcp/exports"

/-- The deterministic export filename `${fileKey}_${sanitizedId}.png`. -/
def exportFilename (fileKey id : Str) : Str :=
  fileKey ++ '_' :: sanitizeId id ++ strLit ".png"

/-- `path.join(figmaExportsDir, filename)`. -/
def exportPath (fileKey id : Str) : Str :=
  figmaExportsDir ++ '/' :: exportFilename fileKey id

/-- The `for (const childId of childIds)` loop (index.js lines 517-544):
each truthy image URL is downloaded and, on success, written; individual
failures (non-2xx or a thrown fetch) are swallowed.  No existence check is
performed before downloading or writing. -/
def exportChildrenLoop (env : FigmaEnv) (fileKey : Str) :
    List Str → List Str × List FigmaEff
  | [] => ([], [])
  | childId :: rest =>
    match env.imageUrls childId with
    | iu =>
      if jsTruthy iu then
        let u := iu.getD []
        match env.download u with
        | .ok =>
          let p := exportPath fileKey childId
          let r := exportChildrenLoop env fileKey rest
          (p :: r.1, .download u :: .write p :: r.2)
        | .notOk =>
          let r := exportChildrenLoop env fileKey rest
          (r.1, .download u :: r.2)
        | .throws =>
          let r := exportChildrenLoop env fileKey rest
          (r.1, .download u :: r.2)
      else exportChildrenLoop env fileKey rest

/-- Result object of `fetchFigmaDesign`: either an `{error}` object or the
design record (name, nodeName, exported image paths). -/
inductive FigmaRes where
  | err (msg : Str)
  | okRes (name : Str) (nodeName : Option Str) (images : List Str)
deriving DecidableEq

def exportableChildTys : List Str :=
  [strLit "FRAME", strLit "COMPONENT", strLit "GROUP", strLit "SECTION"]

/-- The node-export stage of `fetchFigmaDesign` (index.js lines 471-574):
fetch node metadata, classify large frames, and export either the qualifying
children (batched, capped at 8) or the whole frame.  An exception from the
whole-frame image download escapes to the outer catch and becomes an `err`
result. -/
def figmaNodeStage (env : FigmaEnv) (fileKey nodeId : Str) :
    FigmaRes × List FigmaEff :=
  if !(retryResOk env.nodesRes) then (.okRes env.fileName none [], [])
  else
    match env.nodeDoc with
    | none => (.okRes env.fileName none [], [])
    | some doc =>
      let isLarge :=
        match doc.bbox with
        | some bb => bb.w > 1500 || bb.h > 2000
        | none => false
      let exportable := (doc.children.getD []).filter (fun c =>
        decide (c.ty ∈ exportableChildTys) &&
          (match c.bbox with
           | some bb => 100 ≤ bb.w && 100 ≤ bb.h
           | none => false))
      if isLarge && !(exportable.isEmpty) then
        let childIds := (exportable.take 8).map (fun c => c.id)
        if retryResOk env.imagesRes then
          let r := exportChildrenLoop env fileKey childIds
          (.okRes env.fileName (some doc.name) r.1, r.2)
        else (.okRes env.fileName (some doc.name) [], [])
      else
        if retryResOk env.imagesRes then
          match env.imageUrls nodeId with
          | iu =>
            if jsTruthy iu then
              let u := iu.getD []
              match env.download u with
              | .ok =>
                let p := exportPath fileKey nodeId
                (.okRes env.fileName (some doc.name) [p],
                 [.download u, .write p])
              | .notOk =>
                (.okRes env.fileName (some doc.name) [], [.download u])
              | .throws =>
                (.err (strLit "Figma fetch failed: fetch error"), [.download u])
            else (.okRes env.fileName (some doc.name) [], [])
        else (.okRes env.fileName (some doc.name) [], [])

/-- `fetchFigmaDesign(url)` (index.js lines 420-580).  The `try` block starts
only after `parseFigmaUrl`, so a URL-constructor throw escapes as
`Except.error`; everything else is returned as data.  The returned effect
list records every image download issued and every file write performed. -/
def fetchFigmaDesignM (env : FigmaEnv) (url : Str) :
    Except UrlThrow (FigmaRes × List FigmaEff) :=
  if !env.configured then
    .ok (.err (strLit "Figma not configured. Run: node ~/.config/figma-mcp/setup.js"), [])
  else
    match parseFigmaUrl url with
    | .error e => .error e
    | .ok none => .ok (.err (strLit "Invalid Figma URL"), [])
    | .ok (some ref) =>
      match env.filesRes with
      | .limited ra =>
        .ok (.err (strLit "Figma API rate limit exceeded. Try again in " ++ ra ++
              strLit " seconds."), [])
      | .resp s =>
        if !(200 ≤ s && s ≤ 299) then
          if s = 403 then
            .ok (.err (strLit "Figma access denied. Check your token or file permissions."), [])
          else if s = 404 then
            .ok (.err (strLit "Figma file not found. Check the URL."), [])
          else .ok (.err (strLit "Figma API error: " ++ natToChars s), [])
        else
          match ref.nodeId with
          | none => .ok (.okRes env.fileName none [], [])
          | some nodeId => .ok (figmaNodeStage env ref.fileKey nodeId)

/-! ## `downloadAttachment` (index.js lines 104-128) -/

def attachmentDirC : Str := strLit "HOME/.config/jira-mcp/attachments"

/-- `path.join(attachmentDir, issueKey, filename)` (built via `issueDir`). -/
def attachmentPath (issueKey filename : Str) : Str :=
  attachmentDirC ++ '/' :: issueKey ++ '/' :: filename

/-- `downloadAttachment(url, filename, issueKey)`: when the local path
already exists it is returned immediately with no fetch and no write;
otherwise the attachment is fetched and, on success, written. -/
def downloadAttachment (fsExists : Str → Bool) (download : Str → DlRes)
    (url filename issueKey : Str) : Except Str Str × List FigmaEff :=
  let localPath := attachmentPath issueKey filename
  if fsExists localPath then (.ok localPath, [])
  else
    match download url with
    | .ok => (.ok localPath, [.download url, .write localPath])
    | .notOk =>
      (.error (strLit "Failed to download " ++ filename), [.download url])
    | .throws => (.error (strLit "fetch failed"), [.download url])

/-! ## Inline formatting and `buildCommentADF` (index.js lines 226-311)

The combined regex
``/(`(.+?)`|\*\*(.+?)\*\*|\*(.+?)\*|@([A-Z][a-zA-Zà-ÿ]*(?:\s[A-Z][a-zA-Zà-ÿ]*)*))/g``
is modelled as a leftmost scanner trying the four alternatives in source
order at each position.  User lookup (`searchUser`) is the external
`resolveUser` collaborator and is passed as an oracle. -/

def backtickChar : Char := Char.ofNat 96

/-- Letters of the class `[a-zA-Zà-ÿ]` (the accented range is the Unicode
codepoints 0xE0-0xFF, exactly as the regex range denotes). -/
def isNameChar (c : Char) : Bool :=
  isUpperAZ c || isLowerAZ c || (0xE0 ≤ c.toNat && c.toNat ≤ 0xFF)

/-- Lazy scan for the closing single-character delimiter of `(.+?)stop`,
invoked after the first (unconditional) content character has been consumed
by `lazyDelim1`.  `.` does not match a newline. -/
def lazyDelim1Go (stop : Char) (acc : Str) : Str → Option (Str × Str)
  | [] => none
  | c :: rest =>
    if c = stop then some (acc.reverse, rest)
    else if c = newlineChar then none
    else lazyDelim1Go stop (c :: acc) rest

/-- Lazy match for the tail of `(.+?)stop` with content of length at least
one: the content runs up to the first `stop` at distance two or more from
the opening delimiter. -/
def lazyDelim1 (stop : Char) (l : Str) : Option (Str × Str) :=
  match l with
  | [] => none
  | c :: rest => if c = newlineChar then none else lazyDelim1Go stop [c] rest

/-- Lazy scan for the closing `**` of `\*\*(.+?)\*\*`. -/
def lazyStar2Go (acc : Str) : Str → Option (Str × Str)
  | '*' :: '*' :: rest2 => some (acc.reverse, rest2)
  | c :: rest =>
    if c = newlineChar then none else lazyStar2Go (c :: acc) rest
  | [] => none

def lazyStar2 (l : Str) : Option (Str × Str) :=
  match l with
  | [] => none
  | c :: rest => if c = newlineChar then none else lazyStar2Go [c] rest

/-- Greedy scan for `[a-zA-Zà-ÿ]*(?:\s[A-Z][a-zA-Zà-ÿ]*)*`: consume name
letters; at a whitespace character followed by a capital, consume both and
continue; stop at anything else.  `acc` accumulates the consumed
characters. -/
def mentionSeg (acc : Str) : Str → Str × Str
  | [] => (acc, [])
  | c :: rest =>
    if isNameChar c then mentionSeg (acc ++ [c]) rest
    else if isWs c then
      match rest with
      | d :: rest2 =>
        if isUpperAZ d then mentionSeg (acc ++ [c, d]) rest2
        else (acc, c :: d :: rest2)
      | [] => (acc, [c])
    else (acc, c :: rest)

/-- Match `([A-Z][a-zA-Zà-ÿ]*(?:\s[A-Z][a-zA-Zà-ÿ]*)*)` (the mention name,
after the `@`); returns the capture and the rest. -/
def matchMentionName (l : Str) : Option (Str × Str) :=
  match l with
  | [] => none
  | c :: rest =>
    if isUpperAZ c then
      let er := mentionSeg [] rest
      some (c :: er.1, er.2)
    else none

inductive InlineTok where
  | codeTok (content : Str)
  | boldTok (content : Str)
  | emTok (content : Str)
  | mentionTok (name : Str)

/-- Try the four regex alternatives, in source order, at the head of the
input; returns the token and the rest after the match. -/
def tryInlineAt (l : Str) : Option (InlineTok × Str) :=
  match l with
  | [] => none
  | c :: rest =>
    if c = backtickChar then
      (lazyDelim1 backtickChar rest).map (fun p => (.codeTok p.1, p.2))
    else if c = '*' then
      match rest with
      | d :: rest2 =>
        if d = '*' then
          match lazyStar2 rest2 with
          | some p => some (.boldTok p.1, p.2)
          | none => (lazyDelim1 '*' rest).map (fun p => (.emTok p.1, p.2))
        else (lazyDelim1 '*' rest).map (fun p => (.emTok p.1, p.2))
      | [] => none
    else if c = '@' then
      (matchMentionName rest).map (fun p => (.mentionTok p.1, p.2))
    else none

structure UserRes where
  accountId : Str
  displayName : Str

def mkText (s : Str) : AdfV := .node (strLit "text") (some s) [] none none none

def mkMarkedText (s : Str) (markTy : Str) : AdfV :=
  .node (strLit "text") (some s) [{ ty := markTy, href := none }] none none none

def mkHardBreak : AdfV := .node (strLit "hardBreak") none [] none none none

/-- The ADF node(s) produced for one matched token (index.js lines 239-259);
an unresolvable mention degrades to the literal matched text. -/
def tokNodes (resolve : Str → Option UserRes) : InlineTok → List AdfV
  | .codeTok s => [mkMarkedText s (strLit "code")]
  | .boldTok s => [mkMarkedText s (strLit "strong")]
  | .emTok s => [mkMarkedText s (strLit "em")]
  | .mentionTok name =>
    match resolve (trimWS name) with
    | some u =>
      [AdfV.node (strLit "mention") none [] none (some ('@' :: u.displayName)) none]
    | none => [mkText ('@' :: name)]

/-- The `while ((match = regex.exec(text)))` loop of `parseInlineFormatting`:
`pending` holds (reversed) the plain text since the last match.  The fuel is
an upper bound on scan steps; every step consumes at least one character. -/
def scanInlineAux (resolve : Str → Option UserRes) :
    Nat → Str → Str → List AdfV
  | _, pending, [] => if pending = [] then [] else [mkText pending.reverse]
  | 0, pending, l =>
    if pending.reverse ++ l = [] then [] else [mkText (pending.reverse ++ l)]
  | fuel + 1, pending, c :: rest =>
    match tryInlineAt (c :: rest) with
    | some (tok, after) =>
      (if pending = [] then [] else [mkText pending.reverse]) ++
        tokNodes resolve tok ++ scanInlineAux resolve fuel [] after
    | none => scanInlineAux resolve fuel (c :: pending) rest

/-- `parseInlineFormatting(text)` (index.js lines 226-269). -/
def parseInlineFormatting (resolve : Str → Option UserRes) (text : Str) :
    List AdfV :=
  let nodes := scanInlineAux resolve text.length [] text
  if nodes.isEmpty then [mkText text] else nodes

mutual

/-- `text.split(/\n\n+/)`: pieces separated by maximal runs of two or more
newlines (a single newline stays inside its piece).  `acc` is the reversed
current piece. -/
def splitBlocksGo (acc : Str) : Str → List Str
  | [] => [acc.reverse]
  | c :: rest =>
    if c = newlineChar then
      match rest with
      | d :: rest2 =>
        if d = newlineChar then acc.reverse :: splitBlocksSep rest2
        else splitBlocksGo (c :: acc) (d :: rest2)
      | [] => [(c :: acc).reverse]
    else splitBlocksGo (c :: acc) rest

/-- Consume the rest of a separator's newline run, then start the next
piece. -/
def splitBlocksSep : Str → List Str
  | [] => [[]]
  | c :: rest =>
    if c = newlineChar then splitBlocksSep rest else splitBlocksGo [c] rest

end

def splitBlocks (s : Str) : List Str := splitBlocksGo [] s

/-- `lines.every((l) => l.trimStart().startsWith("- "))` (index.js line 282). -/
def isBulletLines (lines : List Str) : Bool :=
  lines.all (fun l => List.isPrefixOf (strLit "- ") (trimLeftWS l))

def mkParagraph (content : List AdfV) : AdfV :=
  .node (strLit "paragraph") none [] none none (some content)

/-- Paragraph content for a block's lines: line contents joined by
`hardBreak` nodes (index.js lines 298-304). -/
def paragraphContentOf (resolve : Str → Option UserRes) (lines : List Str) :
    List AdfV :=
  match lines with
  | [] => []
  | l0 :: rest =>
    parseInlineFormatting resolve l0 ++
      (rest.map (fun li => mkHardBreak :: parseInlineFormatting resolve li)).flatten

/-- One block of `buildCommentADF` (index.js lines 277-305): skipped when it
trims to nothing, a bullet list when every line starts with `- `, otherwise
a paragraph. -/
def blockToContent (resolve : Str → Option UserRes) (block : Str) : List AdfV :=
  let trimmed := trimWS block
  if trimmed = [] then []
  else
    let lines := splitOnChar newlineChar trimmed
    if isBulletLines lines then
      [AdfV.node (strLit "bulletList") none [] none none (some (lines.map (fun line =>
        AdfV.node (strLit "listItem") none [] none none
          (some [mkParagraph
            (parseInlineFormatting resolve ((trimLeftWS line).drop 2))]))))]
    else [mkParagraph (paragraphContentOf resolve lines)]

/-- `buildCommentADF(text)` (index.js lines 272-311). -/
def buildCommentADF (resolve : Str → Option UserRes) (text : Str) : List AdfV :=
  let content := ((splitBlocks text).map (blockToContent resolve)).flatten
  if content.isEmpty then [mkParagraph [mkText text]] else content

/-- A whole ADF document node wrapping a content list. -/
def docNode (content : List AdfV) : AdfV :=
  .node (strLit "doc") none [] none none (some content)

/-! ## The aggregation traversal (`getTicket`, index.js lines 584-920)

The Jira backend is an oracle `Str → Except Str IssueData` mapping an issue
key to the parsed `fields` of `/issue/KEY` (or a thrown error message).  The
model records the keys passed to the issue endpoint after the primary fetch,
and the accumulated `allText`/`allUrls` pools, faithfully reproducing which
texts and urls the source accumulates (subtask and linked-issue descriptions
are rendered but never added to the pools; a referenced ticket's description
joins `allText` only when it contains Figma URLs).  Attachment handling
(lines 674-698) touches only the report text and the attachment downloader
modelled separately above, so it is omitted here. -/

structure LinkJs where
  outward : Option Str
  inward : Option Str

structure IssueData where
  parent : Option Str
  subtasks : List Str
  issuelinks : List LinkJs
  description : ExtractInput
  comments : List ExtractInput

/-- `maxLinkedToFetch` (line 756) and `maxReferencedToFetch` (line 826). -/
def maxLinkedToFetch : Nat := 10
def maxReferencedToFetch : Nat := 10

structure JiraOut where
  fetched : List Str
  allText : Str
  allUrls : List Str
  refsToFetch : List Str
  already : List Str

/-- The text and urls contributed by the parent section (lines 619-658):
the parent's description joins the pools only when it trims to something
nonempty; each parent comment's text is appended prefixed with a space;
a failed parent fetch is caught and contributes nothing. -/
def parentContrib (oracle : Str → Except Str IssueData) :
    Option Str → Str × List Str
  | none => ([], [])
  | some pk =>
    match oracle pk with
    | .error _ => ([], [])
    | .ok pIssue =>
      let pd := extractText pIssue.description []
      let keep := pd.1 ≠ [] ∧ trimWS pd.1 ≠ []
      ((if keep then ' ' :: pd.1 else []) ++
         (pIssue.comments.map (fun c => ' ' :: (extractText c []).1)).flatten,
       if keep then pd.2 else [])

/-- The referenced-tickets loop (lines 822-880): each fetched referenced
ticket whose description contains Figma URLs has that description appended
to `allText`; fetch failures are caught per item. -/
def refsLoopText (oracle : Str → Except Str IssueData) (allText : Str)
    (keys : List Str) : Str :=
  keys.foldl
    (fun acc k =>
      match oracle k with
      | .error _ => acc
      | .ok rIssue =>
        let rd := extractText rIssue.description []
        if (findFigmaUrls rd.1).isEmpty then acc else acc ++ ' ' :: rd.1)
    allText

/-- All issue-endpoint fetches and pool accumulation of `getTicket` up to
the Figma stage (index.js lines 584-880).  `Except.error` exactly when the
primary fetch fails. -/
def jiraPhase (oracle : Str → Except Str IssueData) (issueKey : Str) :
    Except Str JiraOut :=
  match oracle issueKey with
  | .error e => .error e
  | .ok f =>
    let desc := extractText f.description []
    let pc := parentContrib oracle f.parent
    let ownComments := f.comments.map (fun c => extractText c [])
    let allText1 := desc.1 ++ pc.1 ++
      (ownComments.map (fun r => ' ' :: r.1)).flatten
    let allUrls1 := desc.2 ++ pc.2 ++ (ownComments.map (fun r => r.2)).flatten
    let linkedKeys :=
      (f.issuelinks.map (fun l => l.outward.toList ++ l.inward.toList)).flatten
    let already := issueKey :: f.parent.toList ++ f.subtasks ++ linkedKeys
    let refsToFetch :=
      (findJiraTicketKeys allText1 (some issueKey)).filter
        (fun k => k ∉ already)
    let refsFetched := refsToFetch.take maxReferencedToFetch
    let allText2 := refsLoopText oracle allText1 refsFetched
    .ok
      { fetched := f.parent.toList ++ f.subtasks ++
          linkedKeys.take maxLinkedToFetch ++ refsFetched,
        allText := allText2,
        allUrls := allUrls1,
        refsToFetch := refsToFetch,
        already := already }

/-- The `for (const url of allFigmaUrls)` loop (lines 895-915): an exception
from `fetchFigmaDesign` (the unguarded `new URL` throw) aborts the whole
call. -/
def figmaLoop (figma : Str → FigmaEnv) :
    List Str → Except UrlThrow (List FigmaRes)
  | [] => .ok []
  | u :: rest =>
    match fetchFigmaDesignM (figma u) u with
    | .error e => .error e
    | .ok r =>
      match figmaLoop figma rest with
      | .error e => .error e
      | .ok rs => .ok (r.1 :: rs)

/-- The Figma stage of `getTicket` (lines 882-917): the URL pool is the
regex matches over `allText` plus the embedded URLs containing `figma.com`,
deduplicated in insertion order. -/
def figmaPhase (figma : Str → FigmaEnv) (allText : Str) (allUrls : List Str) :
    Except UrlThrow (List FigmaRes) :=
  let textUrls := findFigmaUrls allText
  let embedded := allUrls.filter
    (fun u => !u.isEmpty && containsSub (strLit "figma.com") u)
  figmaLoop figma (jsSetList (textUrls ++ embedded))

inductive RunError where
  | jiraError (msg : Str)
  | urlTypeError (u : UrlThrow)
deriving DecidableEq

structure RunOut where
  fetched : List Str
  refsToFetch : List Str
  figma : List FigmaRes

/-- `getTicket(issueKey, downloadImages, fetchFigma)` (index.js lines
584-920), as observed through its remote-call trace: the primary fetch, the
dependent issue fetches, and the Figma stage (entered when `fetchFigma` is
set and Figma is configured). -/
def getTicketRun (oracle : Str → Except Str IssueData)
    (figma : Str → FigmaEnv) (figmaConfigured : Bool) (fetchFigma : Bool)
    (issueKey : Str) : Except RunError RunOut :=
  match jiraPhase oracle issueKey with
  | .error e => .error (.jiraError e)
  | .ok jo =>
    if fetchFigma && figmaConfigured then
      match figmaPhase figma jo.allText jo.allUrls with
      | .error e => .error (.urlTypeError e)
      | .ok rs =>
        .ok { fetched := jo.fetched, refsToFetch := jo.refsToFetch, figma := rs }
    else
      .ok { fetched := jo.fetched, refsToFetch := jo.refsToFetch, figma := [] }

/-! ## Specification-side definitions

These definitions follow the wording of the spec/claims rather than the
source; the claim theorems compare them with the source translations
above. -/

/-- The URLs contributed by one node itself under the C6 claim's wording:
every `link`-mark href when the node is Text-typed, every card URL. -/
def deepUrlsHere (ty : Str) (marks : List MarkJs) (aUrl : Option Str) : List Str :=
  (if ty = strLit "text" then
     marks.foldr
       (fun m acc =>
         if m.ty = strLit "link" then
           (match m.href with | some h => [h] | none => []) ++ acc
         else acc) []
   else []) ++
  (if ty ∈ cardTys then
     (match aUrl with | some u => [u] | none => []) else [])

mutual

/-- C6 claim, verbatim: every href of every `link` mark on a Text node and
every embed/smart-link node URL, anywhere in the document tree, in document
order, with multiplicity. -/
def deepUrls : AdfV → List Str
  | .node ty _ marks aUrl _ none => deepUrlsHere ty marks aUrl
  | .node ty _ marks aUrl _ (some cs) =>
    deepUrlsHere ty marks aUrl ++ deepUrlsKids cs

def deepUrlsKids : List AdfV → List Str
  | [] => []
  | n :: rest => deepUrls n ++ deepUrlsKids rest

end

mutual

/-- C6 amended: the URLs the `extractText` traversal can reach, as a pure
concatenation catamorphism — truthy link-mark hrefs of Text-typed nodes and
truthy card URLs, in document order with multiplicity, not descending into
media, mention, hardBreak or Text-typed nodes. -/
def reachableUrls : AdfV → List Str
  | .node ty _ marks aUrl _ none =>
    if ty = strLit "text" then linkHrefs marks
    else if ty = strLit "paragraph" then []
    else if ty = strLit "hardBreak" then []
    else if ty = strLit "mention" then []
    else if ty = strLit "mediaGroup" || ty = strLit "mediaSingle" then []
    else if ty ∈ cardTys then (if jsTruthy aUrl then [aUrl.getD []] else [])
    else []
  | .node ty _ marks aUrl _ (some cs) =>
    if ty = strLit "text" then linkHrefs marks
    else if ty = strLit "paragraph" then reachableUrlsKids cs
    else if ty = strLit "hardBreak" then []
    else if ty = strLit "mention" then []
    else if ty = strLit "mediaGroup" || ty = strLit "mediaSingle" then []
    else if ty ∈ cardTys then (if jsTruthy aUrl then [aUrl.getD []] else [])
    else reachableUrlsKids cs

def reachableUrlsKids : List AdfV → List Str
  | [] => []
  | n :: rest => reachableUrls n ++ reachableUrlsKids rest

end

/-- The trimmed nonempty lines of a string: its visible text content up to
whitespace normalization at line and block boundaries. -/
def normLines (s : Str) : List Str :=
  ((splitOnChar newlineChar s).map trimWS).filter (fun l => !l.isEmpty)

/-- Plain text in the sense of C7: no backtick, no asterisk, and no `@`
immediately followed by an ASCII capital letter (the start of a mention
token). -/
def cleanB : Str → Bool
  | [] => true
  | c :: rest =>
    if c = backtickChar || c = '*' then false
    else if c = '@' then
      (match rest with
       | d :: _ => !isUpperAZ d
       | [] => true) && cleanB rest
    else cleanB rest

/-- No block of the input is recognized as a bullet list by
`buildCommentADF`. -/
def noBulletBlocks (t : Str) : Bool :=
  (splitBlocks t).all (fun b =>
    let tr := trimWS b
    tr.isEmpty || !isBulletLines (splitOnChar newlineChar tr))

/-! ## Concrete scenario data for the retry-loop claims -/

def c2Resp429Five : JsResponse := { status := 429, retryAfter := some (strLit "5") }
def c2Resp200 : JsResponse := { status := 200, retryAfter := none }

/-- Mock stream: 429 with `retry-after: 5` twice, then 200. -/
def c2StreamA : Nat → JsResponse :=
  fun i => if i < 2 then c2Resp429Five else c2Resp200

/-- Mock stream: every response is 429 with `retry-after: 7200`. -/
def c2StreamB : Nat → JsResponse :=
  fun _ => { status := 429, retryAfter := some (strLit "7200") }

def c9Stream : Nat → JsResponse := fun _ => { status := 500, retryAfter := none }

def c10Stream : Nat → JsResponse :=
  fun _ => { status := 429, retryAfter := some (strLit "xyz") }

/-- A recognized keyword path segment of `parseFigmaUrl`. -/
def isKwSeg (p : Str) : Bool :=
  p = strLit "file" || p = strLit "design" || p = strLit "proto"

def c8U : UrlParts :=
  { pathname := strLit "/design/ABC123/Name", query := strLit "node-id=1-2" }

def c8Ref : DesignRef := { fileKey := strLit "ABC123", nodeId := some (strLit "1:2") }

/-- ASCII lowercasing (`String.prototype.toLowerCase` restricted to A-Z),
used to state case-insensitive comparison of keys. -/
def lowerAZ (c : Char) : Char :=
  if isUpperAZ c then Char.ofNat (c.toNat + 32) else c

def c4Env : FigmaEnv :=
  { configured := true
    filesRes := .resp 200
    fileName := strLit "Design"
    nodesRes := .resp 200
    nodeDoc := some { name := strLit "Frame", bbox := some { w := 800, h := 600 },
                      children := some [] }
    imagesRes := .resp 200
    imageUrls := fun _ => some (strLit "http://img/1")
    download := fun _ => .ok
    fsExists := fun _ => true }

def c4Url : Str := strLit "https://figma.com/design/KEY1/Name?node-id=1-2"

def c5Issue : IssueData :=
  { parent := none, subtasks := [], issuelinks := [],
    description := .nodeI (docNode
      [AdfV.node (strLit "text") (some (strLit "design"))
         [{ ty := strLit "link", href := some (strLit "figma.com/x") }]
         none none none]),
    comments := [] }

def c5Oracle : Str → Except Str IssueData := fun _ => .ok c5Issue

def c5Fig : Str → FigmaEnv := fun _ =>
  { configured := true, filesRes := .resp 200, fileName := [],
    nodesRes := .resp 200, nodeDoc := none, imagesRes := .resp 200,
    imageUrls := fun _ => none, download := fun _ => .ok,
    fsExists := fun _ => false }

def c1Issue : IssueData :=
  { parent := none, subtasks := [strLit "AB-2"],
    issuelinks := [{ outward := some (strLit "AA-1"), inward := none },
                   { outward := some (strLit "AB-2"), inward := none }],
    description := .nullI, comments := [] }

def c1EmptyIssue : IssueData :=
  { parent := none, subtasks := [], issuelinks := [], description := .nullI,
    comments := [] }

def c1Oracle : Str → Except Str IssueData :=
  fun k => if k = strLit "AA-1" then .ok c1Issue else .ok c1EmptyIssue

def c1Jo : JiraOut :=
  { fetched := [strLit "AB-2", strLit "AA-1", strLit "AB-2"],
    allText := [], allUrls := [], refsToFetch := [],
    already := [strLit "AA-1", strLit "AB-2", strLit "AA-1", strLit "AB-2"] }

def c1wIssue : IssueData :=
  { parent := none, subtasks := [strLit "AB-2"],
    issuelinks := [{ outward := some (strLit "AA-1"), inward := none },
                   { outward := some (strLit "AB-2"), inward := none }],
    description := .strI (strLit "see AB-3"), comments := [] }

def c1wOracle : Str → Except Str IssueData :=
  fun k => if k = strLit "AA-1" then .ok c1wIssue else .ok c1EmptyIssue

def c1wJo : JiraOut :=
  { fetched := [strLit "AB-2", strLit "AA-1", strLit "AB-2", strLit "AB-3"],
    allText := strLit "see AB-3", allUrls := [],
    refsToFetch := [strLit "AB-3"],
    already := [strLit "AA-1", strLit "AB-2", strLit "AA-1", strLit "AB-2"] }

def c6LinkText : AdfV :=
  .node (strLit "text") (some (strLit "click"))
    [{ ty := strLit "link", href := some (strLit "http://x") }] none none none

def c6Doc : AdfV :=
  docNode [AdfV.node (strLit "mediaSingle") none [] none none (some [c6LinkText])]

/-- Join pieces with a single separator character (the inverse of
`splitOnChar`). -/
def joinSep (sep : Char) : List Str → Str
  | [] => []
  | [p] => p
  | p :: q :: rest => p ++ sep :: joinSep sep (q :: rest)

/-! ## Theorems -/

/-- C2: `figmaFetchWithRetry` satisfies the 429 backoff contract.  (i) A 2xx
response is returned immediately with no waits and one request; (ii) a 429
whose retry-after duration exceeds `maxWaitSec`, or arriving with the retry
budget exhausted (retry count at `maxRetries`), yields `RateLimited`
carrying the rendered wait estimate, with no waits; (iii) the estimate is
hour-based exactly when the duration exceeds one hour, second-based
otherwise; (iv) otherwise the loop waits exactly the retry-after duration
and re-issues the request; (v) two 429s with retry-after 5 followed by a 200
under `maxRetries = 3` yield the 200 after exactly two 5-second waits;
(vi) a single 429 with retry-after 7200 under `maxWaitSec = 30` yields
`RateLimited` on the first attempt, zero waits, with an hour-based
estimate. -/
theorem claim_C2 :
    (∀ (resp : Nat → JsResponse) (mW : Int) (i b : Nat),
       responseOk (resp i) = true →
       figmaFetchLoop resp mW i b = (.response (resp i), [], 1)) ∧
    (∀ (resp : Nat → JsResponse) (mW : Int) (i b : Nat),
       (resp i).status = 429 →
       (retryAfterSecOf (resp i).retryAfter > mW ∨ b = 0) →
       figmaFetchLoop resp mW i b =
         (.rateLimited (renderWaitTime (retryAfterSecOf (resp i).retryAfter)),
          [], 1)) ∧
    (∀ sec : Int, sec > 3600 →
       renderWaitTime sec =
         intToChars (jsRoundDiv3600 sec) ++ strLit " hours (monthly limit reached)") ∧
    (∀ sec : Int, ¬ sec > 3600 →
       renderWaitTime sec = intToChars sec ++ strLit " seconds") ∧
    (∀ (resp : Nat → JsResponse) (mW : Int) (i b : Nat),
       (resp i).status = 429 →
       ¬ retryAfterSecOf (resp i).retryAfter > mW →
       figmaFetchLoop resp mW i (b + 1) =
         ((figmaFetchLoop resp mW (i + 1) b).1,
          retryAfterSecOf (resp i).retryAfter ::
            (figmaFetchLoop resp mW (i + 1) b).2.1,
          (figmaFetchLoop resp mW (i + 1) b).2.2 + 1)) ∧
    figmaFetchWithRetry c2StreamA 3 30 = (.response c2Resp200, [5, 5], 3) ∧
    figmaFetchWithRetry c2StreamB defaultMaxRetries defaultMaxWaitSec =
      (.rateLimited (strLit "2 hours (monthly limit reached)"), [], 1) := by
  refine ⟨?_, ?_, ?_, ?_, ?_, by rfl, by rfl⟩
  · intro resp mW i b h
    cases b <;> simp only [figmaFetchLoop, h, if_true]
  · intro resp mW i b h429 hterm
    have hok : responseOk (resp i) = false := by
      simp [responseOk, h429]
    rcases hterm with hgt | hb
    · cases b <;> simp [figmaFetchLoop, hok, h429, hgt]
    · subst hb; simp [figmaFetchLoop, hok, h429]
  · intro sec h; simp [renderWaitTime, h]
  · intro sec h; simp [renderWaitTime, h]
  · intro resp mW i b h429 hle
    have hok : responseOk (resp i) = false := by
      simp [responseOk, h429]
    simp [figmaFetchLoop, hok, h429, hle]

/-- Witness for C2: the three universally quantified clauses applied at
concrete inputs. -/
theorem claim_C2_witness :
    figmaFetchLoop c2StreamA 30 2 1 = (.response c2Resp200, [], 1) ∧
    figmaFetchLoop c2StreamB 30 0 3 =
      (.rateLimited (renderWaitTime 7200), [], 1) ∧
    renderWaitTime 7200 = strLit "2 hours (monthly limit reached)" ∧
    renderWaitTime 5 = strLit "5 seconds" ∧
    figmaFetchLoop c2StreamA 30 0 3 =
      ((figmaFetchLoop c2StreamA 30 1 2).1,
       5 :: (figmaFetchLoop c2StreamA 30 1 2).2.1,
       (figmaFetchLoop c2StreamA 30 1 2).2.2 + 1) :=
  ⟨claim_C2.1 c2StreamA 30 2 1 (by rfl),
   claim_C2.2.1 c2StreamB 30 0 3 (by rfl) (Or.inl (by decide)),
   by
     have := claim_C2.2.2.1 7200 (by norm_num)
     simpa using this,
   by
     have := claim_C2.2.2.2.1 5 (by norm_num)
     simpa using this,
   by
     have h5 : retryAfterSecOf (c2StreamA 0).retryAfter = 5 := by rfl
     have := claim_C2.2.2.2.2.1 c2StreamA 30 0 2 (by rfl) (by rw [h5]; norm_num)
     simpa [h5] using this⟩

/-- Request and wait bounds for the retry loop: from a remaining budget of
`b`, at most `b + 1` requests are issued and at most `b` waits are
performed. -/
theorem figmaFetchLoop_bounds (resp : Nat → JsResponse) (mW : Int) :
    ∀ (b i : Nat),
      (figmaFetchLoop resp mW i b).2.2 ≤ b + 1 ∧
      (figmaFetchLoop resp mW i b).2.1.length ≤ b := by
  intro b
  induction b with
  | zero =>
    intro i
    simp only [figmaFetchLoop]
    split_ifs <;> simp
  | succ b ih =>
    intro i
    simp only [figmaFetchLoop]
    split_ifs with h1 h2 h3
    · simp
    · simp
    · simp only [List.length_cons]
      have := ih (i + 1)
      omega
    · simp

/-- C9: for every response stream and every `maxRetries`,
`figmaFetchWithRetry` terminates (it is a total function of the model)
after issuing at most `maxRetries + 1` requests and performing at most
`maxRetries` waits; every non-2xx response that is not a 429 ends the loop
immediately with that response. -/
theorem claim_C9 (resp : Nat → JsResponse) (maxRetries : Nat) (maxWaitSec : Int) :
    (figmaFetchWithRetry resp maxRetries maxWaitSec).2.2 ≤ maxRetries + 1 ∧
    (figmaFetchWithRetry resp maxRetries maxWaitSec).2.1.length ≤ maxRetries ∧
    (∀ i b, responseOk (resp i) = false → (resp i).status ≠ 429 →
       figmaFetchLoop resp maxWaitSec i b = (.response (resp i), [], 1)) := by
  refine ⟨(figmaFetchLoop_bounds resp maxWaitSec maxRetries 0).1,
          (figmaFetchLoop_bounds resp maxWaitSec maxRetries 0).2, ?_⟩
  intro i b hok h429
  cases b <;> simp [figmaFetchLoop, hok, h429]

/-- Witness for C9: the non-429 clause applied at a concrete stream of 500
responses. -/
theorem claim_C9_witness :
    figmaFetchLoop c9Stream 30 0 3 = (.response (c9Stream 0), [], 1) :=
  (claim_C9 c9Stream 3 30).2.2 0 3 (by rfl) (by decide)

/-- C10: a 429 whose retry-after header is absent, non-numeric, or parses to
0 is treated as a retry-after of 60 seconds; under the default
`maxWaitSec = 30` this exceeds the wait cap, so the loop immediately returns
`RateLimited` with the estimate rendered as `60 seconds` and performs no
wait. -/
theorem claim_C10 :
    (∀ h : Option Str,
       (h = none ∨ (∃ s, h = some s ∧ jsStrToNumber s = none) ∨
         (∃ s, h = some s ∧ jsStrToNumber s = some 0)) →
       retryAfterSecOf h = 60) ∧
    (∀ (resp : Nat → JsResponse) (i b : Nat),
       (resp i).status = 429 → retryAfterSecOf (resp i).retryAfter = 60 →
       figmaFetchLoop resp defaultMaxWaitSec i b =
         (.rateLimited (strLit "60 seconds"), [], 1)) := by
  constructor
  · rintro h (rfl | ⟨s, rfl, hs⟩ | ⟨s, rfl, hs⟩)
    · simp [retryAfterSecOf]
    · simp [retryAfterSecOf, hs]
    · simp [retryAfterSecOf, hs]
  · intro resp i b h429 h60
    have hok : responseOk (resp i) = false := by simp [responseOk, h429]
    have hrw : renderWaitTime 60 = strLit "60 seconds" := by rfl
    cases b <;> simp [figmaFetchLoop, hok, h429, h60, hrw, defaultMaxWaitSec]

/-- Witness for C10: applied to a non-numeric header and to a concrete 429
stream carrying one. -/
theorem claim_C10_witness :
    retryAfterSecOf (some (strLit "xyz")) = 60 ∧
    figmaFetchLoop c10Stream defaultMaxWaitSec 0 defaultMaxRetries =
      (.rateLimited (strLit "60 seconds"), [], 1) :=
  ⟨claim_C10.1 (some (strLit "xyz")) (Or.inr (Or.inl ⟨_, rfl, by rfl⟩)),
   claim_C10.2 c10Stream 0 defaultMaxRetries (by rfl) (by rfl)⟩

/-- Structure of a successful `fileKeyLoop` run: the path parts decompose at
the first keyword segment, and the result is the head of what follows. -/
theorem fileKeyLoop_spec (parts : List Str) (nx : Option Str)
    (h : fileKeyLoop parts = some nx) :
    ∃ pre kw rest, parts = pre ++ kw :: rest ∧ isKwSeg kw = true ∧
      (∀ q ∈ pre, isKwSeg q = false) ∧ nx = rest.head? := by
  induction parts with
  | nil => simp [fileKeyLoop] at h
  | cons p rest ih =>
    by_cases hkw : (p = strLit "file" || p = strLit "design" || p = strLit "proto") = true
    · refine ⟨[], p, rest, by simp, by simp [isKwSeg, hkw], by simp, ?_⟩
      rw [fileKeyLoop] at h
      simp only [hkw] at h
      rw [if_pos] at h
      · exact (Option.some_inj.mp h).symm
      · simp [hkw]
    · rw [fileKeyLoop] at h
      rw [if_neg] at h
      · obtain ⟨pre, kw, rest2, hparts, hkw2, hpre, hnx⟩ := ih h
        exact ⟨p :: pre, kw, rest2, by simp [hparts], hkw2,
          by
            intro q hq
            rcases List.mem_cons.mp hq with rfl | hq2
            · simpa [isKwSeg] using hkw
            · exact hpre q hq2,
          hnx⟩
      · simpa using hkw

/-- C8 counterexample: `parseFigmaUrl` is not total on strings — on
`figma.com/file/ABC` (no scheme) the `new URL` constructor throws, so the
function raises instead of returning a `DesignRef` or absent; moreover on
`https://figma.com/file` a recognized path segment `file` is present and yet
the result is absent, refuting "absent exactly when no recognized path
segment is found". -/
theorem claim_C8_counterexample :
    parseFigmaUrl (strLit "figma.com/file/ABC") =
      .error (.invalidURL (strLit "figma.com/file/ABC")) ∧
    parseFigmaUrl (strLit "https://figma.com/file") = .ok none ∧
    (parseURL (strLit "https://figma.com/file")).map UrlParts.pathname =
      some (strLit "/file") ∧
    strLit "file" ∈ splitOnChar '/' (strLit "/file") :=
  ⟨by rfl, by rfl, by rfl, by decide⟩

/-- C8 amended: for every input that the URL constructor accepts,
`parseFigmaUrl` returns without raising; when it returns a `DesignRef`, the
pathname splits at the first recognized keyword segment (`file`, `design`
or `proto`), the `fileKey` is the nonempty segment immediately following
it, and the `node-id` query parameter, when present and nonempty, has its
hyphens translated to colons (`nodeId` is absent when the parameter is
absent); on unparseable inputs the URL constructor's exception propagates.
`parseFigmaUrl("https://figma.com/design/ABC123/Name?node-id=1-2")` yields
fileKey `ABC123` and nodeId `1:2`. -/
theorem claim_C8_amended :
    (∀ url u, parseURL url = some u →
       parseFigmaUrl url = .ok (parseFigmaUrlParsed u)) ∧
    (∀ u ref, parseFigmaUrlParsed u = some ref →
       (∃ pre kw rest,
          splitOnChar '/' u.pathname = pre ++ kw :: ref.fileKey :: rest ∧
          isKwSeg kw = true ∧ (∀ q ∈ pre, isKwSeg q = false) ∧
          ref.fileKey ≠ []) ∧
       (∀ raw, searchParamsGet u.query (strLit "node-id") = some raw →
          raw ≠ [] →
          ref.nodeId = some (raw.map (fun c => if c = '-' then ':' else c))) ∧
       (searchParamsGet u.query (strLit "node-id") = none → ref.nodeId = none)) ∧
    (∀ url, parseURL url = none →
       parseFigmaUrl url = .error (.invalidURL url)) ∧
    parseFigmaUrl (strLit "https://figma.com/design/ABC123/Name?node-id=1-2") =
      .ok (some { fileKey := strLit "ABC123", nodeId := some (strLit "1:2") }) := by
  refine ⟨?_, ?_, ?_, by rfl⟩
  · intro url u hu
    rw [parseFigmaUrl, hu]
  · intro u ref hok
    rw [parseFigmaUrlParsed] at hok
    by_cases htr : jsTruthy
        (match fileKeyLoop (splitOnChar '/' u.pathname) with
         | none => none
         | some next => next) = true
    · rw [if_pos htr] at hok
      have href : ref =
          { fileKey := (match fileKeyLoop (splitOnChar '/' u.pathname) with
              | none => (none : Option Str)
              | some next => next).getD [],
            nodeId := if jsTruthy (searchParamsGet u.query (strLit "node-id")) = true then
                some (((searchParamsGet u.query (strLit "node-id")).getD []).map
                  (fun c => if c = '-' then ':' else c))
              else none } := (Option.some_inj.mp hok).symm
      refine ⟨?_, ?_, ?_⟩
      · cases hfl : fileKeyLoop (splitOnChar '/' u.pathname) with
        | none => rw [hfl] at htr; simp [jsTruthy] at htr
        | some next =>
          rw [hfl] at htr
          cases next with
          | none => simp [jsTruthy] at htr
          | some k =>
            have hk : k ≠ [] := by simpa [jsTruthy] using htr
            have hfk : ref.fileKey = k := by rw [href]; simp [hfl]
            obtain ⟨pre, kw, rest, hparts, hkw, hpre, hnx⟩ := fileKeyLoop_spec _ _ hfl
            cases rest with
            | nil => simp at hnx
            | cons k2 rest2 =>
              simp only [List.head?] at hnx
              obtain rfl : k = k2 := by simpa using hnx
              exact ⟨pre, kw, rest2, by rw [hfk]; exact hparts, hkw, hpre,
                by rw [hfk]; exact hk⟩
      · intro raw hraw hrne
        rw [href]
        simp only [hraw]
        rw [if_pos]
        · simp
        · simpa [jsTruthy] using hrne
      · intro hnoneq
        rw [href]
        simp only [hnoneq]
        rw [if_neg]
        simp [jsTruthy]
    · rw [if_neg htr] at hok
      exact absurd hok (by simp)
  · intro url hu
    rw [parseFigmaUrl, hu]

/-- Witness for the amended C8, applied at the spec's own example URL and at
a schemeless input. -/
theorem claim_C8_amended_witness :
    parseFigmaUrl (strLit "https://figma.com/design/ABC123/Name?node-id=1-2") =
      .ok (parseFigmaUrlParsed c8U) ∧
    ((∃ pre kw rest,
        splitOnChar '/' c8U.pathname = pre ++ kw :: c8Ref.fileKey :: rest ∧
        isKwSeg kw = true ∧ (∀ q ∈ pre, isKwSeg q = false) ∧
        c8Ref.fileKey ≠ []) ∧
     (∀ raw, searchParamsGet c8U.query (strLit "node-id") = some raw →
        raw ≠ [] →
        c8Ref.nodeId = some (raw.map (fun c => if c = '-' then ':' else c))) ∧
     (searchParamsGet c8U.query (strLit "node-id") = none →
        c8Ref.nodeId = none)) ∧
    parseFigmaUrl (strLit "notaurl") = .error (.invalidURL (strLit "notaurl")) :=
  ⟨claim_C8_amended.1 _ c8U (by rfl),
   claim_C8_amended.2.1 c8U c8Ref (by rfl),
   claim_C8_amended.2.2.1 (strLit "notaurl") (by rfl)⟩

theorem char_toNat_ofNat_valid (n : Nat) (h : n < 55296) :
    (Char.ofNat n).toNat = n := by
  unfold Char.ofNat
  rw [dif_pos (Or.inl h)]
  unfold Char.ofNatAux Char.toNat
  simp only [UInt32.toNat]
  simp [BitVec.toNat_ofNatLt]

theorem char_eq_of_toNat_eq {c d : Char} (h : c.toNat = d.toNat) : c = d :=
  Char.eq_of_val_eq (UInt32.eq_of_toBitVec_eq (BitVec.eq_of_toNat_eq h))

theorem isUpperAZ_bounds {c : Char} (h : isUpperAZ c = true) :
    65 ≤ c.toNat ∧ c.toNat ≤ 90 := by
  rw [isUpperAZ, Bool.and_eq_true, decide_eq_true_iff, decide_eq_true_iff] at h
  exact h

theorem isDigit09_bounds {c : Char} (h : isDigit09 c = true) :
    48 ≤ c.toNat ∧ c.toNat ≤ 57 := by
  rw [isDigit09, Bool.and_eq_true, decide_eq_true_iff, decide_eq_true_iff] at h
  exact h

/-- `lowerAZ` is injective on the characters a matched ticket key can
contain (capitals, digits, hyphen). -/
theorem lowerAZ_inj_on {c d : Char}
    (hc : isUpperDigit c = true ∨ c = '-') (hd : isUpperDigit d = true ∨ d = '-')
    (h : lowerAZ c = lowerAZ d) : c = d := by
  have hdn : ('-' : Char).toNat = 45 := by decide
  have numc : (isUpperAZ c = true ∧ 65 ≤ c.toNat ∧ c.toNat ≤ 90) ∨
      (isUpperAZ c = false ∧ (48 ≤ c.toNat ∧ c.toNat ≤ 57 ∨ c.toNat = 45)) := by
    rcases hc with hc | rfl
    · rw [isUpperDigit, Bool.or_eq_true] at hc
      rcases hc with hc | hc
      · exact Or.inl ⟨hc, isUpperAZ_bounds hc⟩
      · refine Or.inr ⟨?_, Or.inl (isDigit09_bounds hc)⟩
        rcases hu : isUpperAZ c with _ | _
        · rfl
        · obtain ⟨h1, h2⟩ := isUpperAZ_bounds hu
          obtain ⟨h3, h4⟩ := isDigit09_bounds hc
          omega
    · exact Or.inr ⟨by decide, Or.inr (by decide)⟩
  have numd : (isUpperAZ d = true ∧ 65 ≤ d.toNat ∧ d.toNat ≤ 90) ∨
      (isUpperAZ d = false ∧ (48 ≤ d.toNat ∧ d.toNat ≤ 57 ∨ d.toNat = 45)) := by
    rcases hd with hd | rfl
    · rw [isUpperDigit, Bool.or_eq_true] at hd
      rcases hd with hd | hd
      · exact Or.inl ⟨hd, isUpperAZ_bounds hd⟩
      · refine Or.inr ⟨?_, Or.inl (isDigit09_bounds hd)⟩
        rcases hu : isUpperAZ d with _ | _
        · rfl
        · obtain ⟨h1, h2⟩ := isUpperAZ_bounds hu
          obtain ⟨h3, h4⟩ := isDigit09_bounds hd
          omega
    · exact Or.inr ⟨by decide, Or.inr (by decide)⟩
  unfold lowerAZ at h
  rcases numc with ⟨huc, hbc1, hbc2⟩ | ⟨huc, hbc⟩ <;>
    rcases numd with ⟨hud, hbd1, hbd2⟩ | ⟨hud, hbd⟩
  · rw [if_pos huc, if_pos hud] at h
    have := congrArg Char.toNat h
    rw [char_toNat_ofNat_valid _ (by omega), char_toNat_ofNat_valid _ (by omega)] at this
    exact char_eq_of_toNat_eq (by omega)
  · rw [if_pos huc, if_neg (by simp [hud])] at h
    have := congrArg Char.toNat h
    rw [char_toNat_ofNat_valid _ (by omega)] at this
    omega
  · rw [if_neg (by simp [huc]), if_pos hud] at h
    have := congrArg Char.toNat h
    rw [char_toNat_ofNat_valid _ (by omega)] at this
    omega
  · rw [if_neg (by simp [huc]), if_neg (by simp [hud])] at h
    exact h

theorem mem_addUnique {acc : List Str} {k x : Str} (h : x ∈ addUnique acc k) :
    x ∈ acc ∨ x = k := by
  unfold addUnique at h
  split_ifs at h
  · exact Or.inl h
  · rcases List.mem_append.mp h with h1 | h1
    · exact Or.inl h1
    · exact Or.inr (List.mem_singleton.mp h1)

theorem addUnique_nodup {acc : List Str} (h : acc.Nodup) (k : Str) :
    (addUnique acc k).Nodup := by
  unfold addUnique
  split_ifs with hk
  · exact h
  · rw [List.nodup_append]
    refine ⟨h, List.nodup_singleton k, ?_⟩
    intro a ha hb
    rw [List.mem_singleton] at hb
    subst hb
    exact hk ha

theorem foldl_addUnique_nodup :
    ∀ (l acc : List Str), acc.Nodup → (l.foldl addUnique acc).Nodup := by
  intro l
  induction l with
  | nil => intro acc h; exact h
  | cons x l ih => intro acc h; exact ih _ (addUnique_nodup h x)

theorem jsSetList_nodup (l : List Str) : (jsSetList l).Nodup :=
  foldl_addUnique_nodup l [] List.nodup_nil

theorem mem_foldl_addUnique :
    ∀ (l acc : List Str) (x : Str), x ∈ l.foldl addUnique acc → x ∈ acc ∨ x ∈ l := by
  intro l
  induction l with
  | nil => intro acc x h; exact Or.inl h
  | cons y l ih =>
    intro acc x h
    rcases ih _ x h with h1 | h1
    · rcases mem_addUnique h1 with h2 | rfl
      · exact Or.inl h2
      · exact Or.inr (List.mem_cons_self x l)
    · exact Or.inr (List.mem_cons_of_mem _ h1)

theorem mem_jsSetList {l : List Str} {x : Str} (h : x ∈ jsSetList l) : x ∈ l := by
  rcases mem_foldl_addUnique l [] x h with h1 | h1
  · simp at h1
  · exact h1

/-- Every character of a key captured by the core pattern is a capital, a
digit, or the hyphen. -/
theorem matchKeyCore_chars {l cap r : Str} (h : matchKeyCore l = some (cap, r)) :
    ∀ c ∈ cap, isUpperDigit c = true ∨ c = '-' := by
  unfold matchKeyCore at h
  cases l with
  | nil => simp at h
  | cons c rest =>
    by_cases hu : isUpperAZ c = true
    · simp only [if_pos hu] at h
      by_cases hrun : rest.takeWhile isUpperDigit = []
      · simp [hrun] at h
      · simp only [if_neg hrun] at h
        cases hr1 : rest.dropWhile isUpperDigit with
        | nil => rw [hr1] at h; simp at h
        | cons d r2 =>
          rw [hr1] at h
          by_cases hd : d = '-'
          · simp only [if_pos hd] at h
            by_cases hds : r2.takeWhile isDigit09 = []
            · simp [hds] at h
            · simp only [if_neg hds] at h
              obtain ⟨hcap, _⟩ := Prod.mk.injEq .. ▸ Option.some_inj.mp h
              subst hcap
              intro x hx
              rcases List.mem_cons.mp hx with rfl | hx2
              · exact Or.inl (by simp [isUpperDigit, hu])
              · rcases List.mem_append.mp hx2 with hx3 | hx3
                · exact Or.inl (List.mem_takeWhile_imp hx3)
                · rcases List.mem_cons.mp hx3 with rfl | hx4
                  · exact Or.inr rfl
                  · exact Or.inl (by
                      simp [isUpperDigit, List.mem_takeWhile_imp hx4])
          · simp [hd] at h
    · simp [hu] at h

/-- Every character of every key produced by the bare-key scanner is a
capital, a digit, or the hyphen. -/
theorem scanKeysAux_chars :
    ∀ (fuel : Nat) (pw : Bool) (l k : Str), k ∈ scanKeysAux fuel pw l →
      ∀ c ∈ k, isUpperDigit c = true ∨ c = '-' := by
  intro fuel
  induction fuel with
  | zero => intro pw l k h; simp [scanKeysAux] at h
  | succ fuel ih =>
    intro pw l k h
    cases l with
    | nil => simp [scanKeysAux] at h
    | cons c rest =>
      unfold scanKeysAux at h
      by_cases hpw : pw
      · rw [if_pos hpw] at h
        exact ih _ _ _ h
      · rw [if_neg hpw] at h
        cases hm : matchKeyCore (c :: rest) with
        | none => rw [hm] at h; exact ih _ _ _ h
        | some capr =>
          obtain ⟨cap, r3⟩ := capr
          rw [hm] at h
          simp only at h
          split at h
          · rcases List.mem_cons.mp h with rfl | h2
            · exact matchKeyCore_chars hm
            · exact ih _ _ _ h2
          · exact ih _ _ _ h

/-- Every browse-URL split candidate's capture comes from the core key
matcher. -/
theorem browseCandidates_from_core :
    ∀ (l : Str) (kr : Str × Str), kr ∈ browseCandidates l →
      ∃ m, matchKeyCore m = some kr := by
  intro l
  induction l with
  | nil => intro kr h; simp [browseCandidates] at h
  | cons c rest ih =>
    intro kr h
    unfold browseCandidates at h
    split_ifs at h
    · simp at h
    · cases hm : (stripPre (strLit "/browse/") rest).bind matchKeyCore with
      | none => rw [hm] at h; exact ih kr h
      | some kr2 =>
        rw [hm] at h
        rcases List.mem_cons.mp h with rfl | h2
        · obtain ⟨m, _, hcore⟩ := Option.bind_eq_some.mp hm
          exact ⟨m, hcore⟩
        · exact ih kr h2

/-- A browse-URL match's capture comes from the core key matcher. -/
theorem matchBrowseUrl_from_core {l : Str} {kr : Str × Str}
    (h : matchBrowseUrl l = some kr) : ∃ m, matchKeyCore m = some kr := by
  unfold matchBrowseUrl at h
  obtain ⟨r, _, h2⟩ := Option.bind_eq_some.mp h
  obtain ⟨m0, _, h3⟩ := Option.bind_eq_some.mp h2
  obtain ⟨hne, rfl⟩ := List.mem_getLast?_eq_getLast h3
  exact browseCandidates_from_core m0 _ (List.getLast_mem hne)

/-- Every character of every key produced by the browse-URL scanner is a
capital, a digit, or the hyphen. -/
theorem scanBrowseUrlsAux_chars :
    ∀ (fuel : Nat) (l k : Str), k ∈ scanBrowseUrlsAux fuel l →
      ∀ c ∈ k, isUpperDigit c = true ∨ c = '-' := by
  intro fuel
  induction fuel with
  | zero => intro l k h; simp [scanBrowseUrlsAux] at h
  | succ fuel ih =>
    intro l k h
    cases l with
    | nil => simp [scanBrowseUrlsAux] at h
    | cons c rest =>
      unfold scanBrowseUrlsAux at h
      cases hm : matchBrowseUrl (c :: rest) with
      | none => rw [hm] at h; exact ih _ _ h
      | some capr =>
        obtain ⟨cap, after⟩ := capr
        rw [hm] at h
        simp only at h
        rcases List.mem_cons.mp h with rfl | h2
        · obtain ⟨m, hcore⟩ := matchBrowseUrl_from_core hm
          exact matchKeyCore_chars hcore
        · exact ih _ _ h2

/-- Character content of every key returned by `findJiraTicketKeys`. -/
theorem findJiraTicketKeys_chars {text : Str} {cur : Option Str} {k : Str}
    (h : k ∈ findJiraTicketKeys text cur) :
    ∀ c ∈ k, isUpperDigit c = true ∨ c = '-' := by
  unfold findJiraTicketKeys at h
  split_ifs at h
  · simp at h
  · have h2 := mem_jsSetList h
    rcases List.mem_append.mp h2 with h3 | h3
    · exact scanBrowseUrlsAux_chars _ _ _ (List.mem_filter.mp h3).1
    · exact scanKeysAux_chars _ _ _ _ (List.mem_filter.mp h3).1

/-- `findJiraTicketKeys` returns a duplicate-free list. -/
theorem findJiraTicketKeys_nodup (text : Str) (cur : Option Str) :
    (findJiraTicketKeys text cur).Nodup := by
  unfold findJiraTicketKeys
  split_ifs
  · exact List.nodup_nil
  · exact jsSetList_nodup _

/-- `findJiraTicketKeys` never returns the excluded current key. -/
theorem findJiraTicketKeys_ne_cur {text : Str} {cur : Option Str} {k : Str}
    (h : k ∈ findJiraTicketKeys text cur) : some k ≠ cur := by
  unfold findJiraTicketKeys at h
  split_ifs at h
  · simp at h
  · have h2 := mem_jsSetList h
    rcases List.mem_append.mp h2 with h3 | h3 <;>
      simpa using (List.mem_filter.mp h3).2

/-- C3 counterexample: the extractor is not case-insensitive and the
self-key exclusion is not case-insensitive.  With current key `proj-1`,
the text `See PROJ-1` still yields `PROJ-1` — a key case-insensitively
equal to the current key — and a lowercase key in the text is simply never
matched (rather than matched and normalized to uppercase). -/
theorem claim_C3_counterexample :
    findJiraTicketKeys (strLit "See PROJ-1") (some (strLit "proj-1")) =
      [strLit "PROJ-1"] ∧
    (strLit "PROJ-1").map lowerAZ = (strLit "proj-1").map lowerAZ ∧
    findJiraTicketKeys (strLit "see proj-1") none = [] :=
  ⟨by rfl, by decide, by rfl⟩

/-- C3 amended: matching is case-sensitive — only uppercase-form keys are
recognized, so lowercase variants are ignored rather than normalized, and
`findJiraTicketKeys("See PROJ-1 and proj-1")` returns the singleton
`PROJ-1` because `proj-1` is never matched.  The result is deduplicated
(set semantics, first occurrence kept), excludes keys exactly equal to the
current key, consists only of capitals, digits and hyphens, and therefore
never contains two distinct keys equal up to case. -/
theorem claim_C3_amended :
    findJiraTicketKeys (strLit "See PROJ-1 and proj-1") none =
      [strLit "PROJ-1"] ∧
    (∀ text cur, (findJiraTicketKeys text cur).Nodup) ∧
    (∀ text cur k, k ∈ findJiraTicketKeys text cur → some k ≠ cur) ∧
    (∀ text cur k, k ∈ findJiraTicketKeys text cur →
       ∀ c ∈ k, isUpperDigit c = true ∨ c = '-') ∧
    (∀ text cur k1 k2, k1 ∈ findJiraTicketKeys text cur →
       k2 ∈ findJiraTicketKeys text cur →
       k1.map lowerAZ = k2.map lowerAZ → k1 = k2) ∧
    findJiraTicketKeys (strLit "see proj-1") none = [] := by
  refine ⟨by rfl, fun text cur => findJiraTicketKeys_nodup text cur,
    fun text cur k h => findJiraTicketKeys_ne_cur h,
    fun text cur k h => findJiraTicketKeys_chars h, ?_, by rfl⟩
  intro text cur k1 k2 h1 h2 hmap
  have c1 := findJiraTicketKeys_chars h1
  have c2 := findJiraTicketKeys_chars h2
  clear h1 h2
  induction k1 generalizing k2 with
  | nil => cases k2 <;> simp_all
  | cons c t ih =>
    cases k2 with
    | nil => simp at hmap
    | cons d t2 =>
      simp only [List.map_cons, List.cons.injEq] at hmap
      have hcd := lowerAZ_inj_on (c1 c (by simp)) (c2 d (by simp)) hmap.1
      subst hcd
      rw [ih t2 hmap.2 (fun x hx => c1 x (List.mem_cons_of_mem c hx))
        (fun x hx => c2 x (List.mem_cons_of_mem c hx))]

/-- Witness for the amended C3: the universal clauses applied at the spec's
example input. -/
theorem claim_C3_amended_witness :
    (some (strLit "PROJ-1") ≠ (none : Option Str)) ∧
    (∀ c ∈ strLit "PROJ-1", isUpperDigit c = true ∨ c = '-') :=
  ⟨claim_C3_amended.2.2.1 (strLit "See PROJ-1 and proj-1") none (strLit "PROJ-1")
     (by rw [claim_C3_amended.1]; exact List.mem_singleton.mpr rfl),
   claim_C3_amended.2.2.2.1 (strLit "See PROJ-1 and proj-1") none (strLit "PROJ-1")
     (by rw [claim_C3_amended.1]; exact List.mem_singleton.mpr rfl)⟩

/-- Every file write performed by the child-export loop targets the
deterministic export path of one of the requested child identifiers. -/
theorem exportChildrenLoop_writes (env : FigmaEnv) (fileKey : Str) :
    ∀ (ids : List Str) (p : Str),
      FigmaEff.write p ∈ (exportChildrenLoop env fileKey ids).2 →
      ∃ id ∈ ids, p = exportPath fileKey id := by
  intro ids
  induction ids with
  | nil => intro p h; simp [exportChildrenLoop] at h
  | cons id rest ih =>
    intro p h
    unfold exportChildrenLoop at h
    dsimp only at h
    split_ifs at h
    · cases hd : env.download ((env.imageUrls id).getD []) <;>
        rw [hd] at h <;> simp only [List.mem_cons] at h
      · rcases h with h1 | h1 | h1
        · simp at h1
        · obtain rfl := FigmaEff.write.inj h1
          exact ⟨id, List.mem_cons_self id rest, rfl⟩
        · obtain ⟨i2, hi2, rfl⟩ := ih p h1
          exact ⟨i2, List.mem_cons_of_mem _ hi2, rfl⟩
      · rcases h with h1 | h1
        · simp at h1
        · obtain ⟨i2, hi2, rfl⟩ := ih p h1
          exact ⟨i2, List.mem_cons_of_mem _ hi2, rfl⟩
      · rcases h with h1 | h1
        · simp at h1
        · obtain ⟨i2, hi2, rfl⟩ := ih p h1
          exact ⟨i2, List.mem_cons_of_mem _ hi2, rfl⟩
    · obtain ⟨i2, hi2, rfl⟩ := ih p h
      exact ⟨i2, List.mem_cons_of_mem _ hi2, rfl⟩

/-- Every file write performed by the node-export stage targets the
deterministic path `exportsDir/{fileKey}_{sanitizedId}.png` for some node
identifier. -/
theorem figmaNodeStage_writes (env : FigmaEnv) (fileKey nodeId : Str) (p : Str)
    (h : FigmaEff.write p ∈ (figmaNodeStage env fileKey nodeId).2) :
    ∃ id, p = exportPath fileKey id := by
  unfold figmaNodeStage at h
  by_cases hn : (!retryResOk env.nodesRes) = true
  · rw [if_pos hn] at h; simp at h
  · rw [if_neg hn] at h
    cases hdoc : env.nodeDoc with
    | none => rw [hdoc] at h; simp at h
    | some doc =>
      rw [hdoc] at h
      dsimp only at h
      split at h
      · by_cases hi : retryResOk env.imagesRes = true
        · rw [if_pos hi] at h
          obtain ⟨id, _, rfl⟩ := exportChildrenLoop_writes env fileKey _ p h
          exact ⟨id, rfl⟩
        · rw [if_neg hi] at h; simp at h
      · by_cases hi : retryResOk env.imagesRes = true
        · rw [if_pos hi] at h
          by_cases ht : jsTruthy (env.imageUrls nodeId) = true
          · rw [if_pos ht] at h
            cases hd : env.download ((env.imageUrls nodeId).getD []) <;> rw [hd] at h
            · simp at h
              exact ⟨nodeId, h⟩
            · simp at h
            · simp at h
          · rw [if_neg ht] at h; simp at h
        · rw [if_neg hi] at h; simp at h

/-- C4 counterexample: the export pipeline performs no cache check.  In an
environment where every file already exists (`fsExists` constantly true),
exporting a design node still downloads the image and overwrites
`{fileKey}_{sanitizedId}.png`, refuting "whenever a file of that name
already exists it is treated as cached and the asset is not re-fetched". -/
theorem claim_C4_counterexample :
    c4Env.fsExists (exportPath (strLit "KEY1") (strLit "1:2")) = true ∧
    fetchFigmaDesignM c4Env c4Url =
      .ok (.okRes (strLit "Design") (some (strLit "Frame"))
             [exportPath (strLit "KEY1") (strLit "1:2")],
           [.download (strLit "http://img/1"),
            .write (exportPath (strLit "KEY1") (strLit "1:2"))]) :=
  ⟨by rfl, by rfl⟩

/-- C4 amended: every file write of the export pipeline targets the
deterministic path `{fileKey}_{sanitizedId}.png` (non-alphanumeric,
non-hyphen characters replaced by underscores) — but the pipeline never
consults the cache, re-downloading and rewriting regardless of existing
files; the existence-check caching belongs to the attachment downloader:
when the attachment's local path exists, `downloadAttachment` returns it
with no fetch and no write. -/
theorem claim_C4_amended :
    (∀ (env : FigmaEnv) (url : Str) (res : FigmaRes) (effs : List FigmaEff)
       (p : Str),
       fetchFigmaDesignM env url = .ok (res, effs) →
       FigmaEff.write p ∈ effs →
       ∃ ref id, parseFigmaUrl url = .ok (some ref) ∧
         p = exportPath ref.fileKey id) ∧
    (∀ (fileKey id : Str),
       exportPath fileKey id =
         figmaExportsDir ++ '/' :: fileKey ++ '_' ::
           (id.map (fun c => if isAlnum c || c = '-' then c else '_')) ++
           strLit ".png") ∧
    (∀ (fsExists : Str → Bool) (download : Str → DlRes) (url filename issueKey : Str),
       fsExists (attachmentPath issueKey filename) = true →
       downloadAttachment fsExists download url filename issueKey =
         (.ok (attachmentPath issueKey filename), [])) := by
  refine ⟨?_, fun fileKey id => rfl, ?_⟩
  · intro env url res effs p h hw
    unfold fetchFigmaDesignM at h
    split_ifs at h
    · obtain ⟨-, rfl⟩ := Prod.mk.injEq .. ▸ Except.ok.inj h
      simp at hw
    · cases hp : parseFigmaUrl url with
      | error e => rw [hp] at h; simp at h
      | ok oref =>
        rw [hp] at h
        cases oref with
        | none =>
          simp only at h
          obtain ⟨-, rfl⟩ := Prod.mk.injEq .. ▸ Except.ok.inj h
          simp at hw
        | some ref =>
          simp only at h
          cases hf : env.filesRes with
          | limited ra =>
            rw [hf] at h
            simp only at h
            obtain ⟨-, rfl⟩ := Prod.mk.injEq .. ▸ Except.ok.inj h
            simp at hw
          | resp s =>
            rw [hf] at h
            simp only at h
            split_ifs at h
            · obtain ⟨-, rfl⟩ := Prod.mk.injEq .. ▸ Except.ok.inj h
              simp at hw
            · obtain ⟨-, rfl⟩ := Prod.mk.injEq .. ▸ Except.ok.inj h
              simp at hw
            · obtain ⟨-, rfl⟩ := Prod.mk.injEq .. ▸ Except.ok.inj h
              simp at hw
            · cases hid : ref.nodeId with
              | none =>
                rw [hid] at h
                simp only at h
                obtain ⟨-, rfl⟩ := Prod.mk.injEq .. ▸ Except.ok.inj h
                simp at hw
              | some nodeId =>
                rw [hid] at h
                simp only at h
                have hst := Except.ok.inj h
                obtain ⟨id, hpid⟩ := figmaNodeStage_writes env ref.fileKey nodeId p
                  (by rw [hst]; exact hw)
                exact ⟨ref, id, rfl, hpid⟩
  · intro fsExists download url filename issueKey hex
    unfold downloadAttachment
    rw [if_pos hex]

/-- Witness for the amended C4: the write performed in the counterexample
environment indeed targets the deterministic path, and a cached attachment
is returned without effects. -/
theorem claim_C4_amended_witness :
    (∃ ref id, parseFigmaUrl c4Url = .ok (some ref) ∧
       exportPath (strLit "KEY1") (strLit "1:2") = exportPath ref.fileKey id) ∧
    downloadAttachment (fun _ => true) (fun _ => .ok)
      (strLit "http://a") (strLit "pic.png") (strLit "AA-1") =
      (.ok (attachmentPath (strLit "AA-1") (strLit "pic.png")), []) :=
  ⟨claim_C4_amended.1 c4Env c4Url
     (.okRes (strLit "Design") (some (strLit "Frame"))
        [exportPath (strLit "KEY1") (strLit "1:2")])
     [.download (strLit "http://img/1"),
      .write (exportPath (strLit "KEY1") (strLit "1:2"))]
     (exportPath (strLit "KEY1") (strLit "1:2"))
     (by rfl) (by simp),
   claim_C4_amended.2.2 (fun _ => true) (fun _ => .ok)
     (strLit "http://a") (strLit "pic.png") (strLit "AA-1") (by rfl)⟩

/-- C5 (bug demonstration): with the Jira backend succeeding on every fetch
(including the primary item) and Figma configured, a ticket whose
description carries a link mark whose href contains `figma.com` but is not
a parseable absolute URL makes the whole `getTicket` call raise: the URL
constructor inside `parseFigmaUrl` is invoked before the `try` block of
`fetchFigmaDesign`, and the `await fetchFigmaDesign(url)` call site in
`getTicket` is not wrapped either, so the exception escapes the aggregate
call even though the primary fetch succeeded. -/
theorem claim_C5_bug :
    c5Oracle (strLit "AA-1") = .ok c5Issue ∧
    getTicketRun c5Oracle c5Fig true true (strLit "AA-1") =
      .error (.urlTypeError (.invalidURL (strLit "figma.com/x"))) :=
  ⟨rfl, by rfl⟩

/-- C1 counterexample: a key reachable both as a subtask and as a linked
issue is fetched once per route, and a self-link makes the traversal fetch
`issueKey` itself: with subtasks `[AB-2]` and issue links to `AA-1` (the
primary) and `AB-2`, the keys passed to the issue endpoint after the
primary fetch are `AB-2, AA-1, AB-2` — duplicated, and containing the
primary key. -/
theorem claim_C1_counterexample :
    (jiraPhase c1Oracle (strLit "AA-1")).map JiraOut.fetched =
      .ok [strLit "AB-2", strLit "AA-1", strLit "AB-2"] ∧
    ¬ ([strLit "AB-2", strLit "AA-1", strLit "AB-2"] : List Str).Nodup ∧
    strLit "AA-1" ∈ [strLit "AB-2", strLit "AA-1", strLit "AB-2"] :=
  ⟨by rfl, by decide, by decide⟩

/-- C1 amended: the dedup guarantee holds for the text-discovered stage
only.  The referenced-ticket keys of a run are duplicate-free and disjoint
from everything already fetched — the primary key, the parent, every
subtask, and every linked issue key (inward or outward, capped or not) —
while the explicit routes themselves (parent, subtasks, first ten linked
issues) are fetched once per route without cross-route deduplication. -/
theorem claim_C1_amended (oracle : Str → Except Str IssueData) (issueKey : Str)
    (f : IssueData) (jo : JiraOut)
    (hf : oracle issueKey = .ok f) (h : jiraPhase oracle issueKey = .ok jo) :
    jo.refsToFetch.Nodup ∧
    (∀ k ∈ jo.refsToFetch,
       k ≠ issueKey ∧ f.parent ≠ some k ∧ k ∉ f.subtasks ∧
       ∀ link ∈ f.issuelinks, link.outward ≠ some k ∧ link.inward ≠ some k) ∧
    jo.fetched = f.parent.toList ++ f.subtasks ++
      ((f.issuelinks.map (fun l => l.outward.toList ++ l.inward.toList)).flatten).take
        maxLinkedToFetch ++ jo.refsToFetch.take maxReferencedToFetch := by
  unfold jiraPhase at h
  rw [hf] at h
  simp only at h
  obtain rfl := (Except.ok.inj h).symm
  refine ⟨List.Nodup.filter _ (findJiraTicketKeys_nodup _ _), ?_, rfl⟩
  intro k hk
  have hmem := List.mem_filter.mp hk
  have hnot : k ∉ issueKey :: f.parent.toList ++ f.subtasks ++
      (f.issuelinks.map (fun l => l.outward.toList ++ l.inward.toList)).flatten :=
    of_decide_eq_true hmem.2
  refine ⟨?_, ?_, ?_, ?_⟩
  · rintro rfl
    exact hnot (by simp)
  · intro hp
    exact hnot (by simp [hp])
  · intro hs
    exact hnot (by simp [hs])
  · intro link hlink
    have hout : ∀ w : Str, w ∈ link.outward.toList ++ link.inward.toList →
        w ∈ (f.issuelinks.map (fun l => l.outward.toList ++ l.inward.toList)).flatten :=
      fun w hw => List.mem_flatten.mpr
        ⟨link.outward.toList ++ link.inward.toList,
         List.mem_map.mpr ⟨link, hlink, rfl⟩, hw⟩
    constructor
    · intro ho
      exact hnot (by
        have := hout k (by simp [ho])
        simp [this])
    · intro hi
      exact hnot (by
        have := hout k (by simp [hi])
        simp [this])

/-- Witness for the amended C1: a run whose text mentions `AB-3` discovers
it as a referenced ticket, and the guarantees hold at that concrete run. -/
theorem claim_C1_amended_witness :
    c1wJo.refsToFetch.Nodup ∧
    (∀ k ∈ c1wJo.refsToFetch,
       k ≠ strLit "AA-1" ∧ c1wIssue.parent ≠ some k ∧ k ∉ c1wIssue.subtasks ∧
       ∀ link ∈ c1wIssue.issuelinks,
         link.outward ≠ some k ∧ link.inward ≠ some k) ∧
    c1wJo.fetched = c1wIssue.parent.toList ++ c1wIssue.subtasks ++
      ((c1wIssue.issuelinks.map
          (fun l => l.outward.toList ++ l.inward.toList)).flatten).take
        maxLinkedToFetch ++ c1wJo.refsToFetch.take maxReferencedToFetch :=
  claim_C1_amended c1wOracle (strLit "AA-1") c1wIssue c1wJo (by rfl) (by rfl)

mutual

/-- The URL side-channel of `extractText` on a node equals the pure
concatenation collection over its children. -/
theorem extractNode_urls : ∀ (n : AdfV) (urls : List Str),
    (extractNode n urls).2 = urls ++
      (match n.children with
       | none => []
       | some cs => reachableUrlsKids cs)
  | .node _ _ _ _ _ none, urls => by
      simp [extractNode, AdfV.children]
  | .node _ _ _ _ _ (some cs), urls => by
      have h := extractKids_urls cs [] urls
      simpa [extractNode, AdfV.children] using h

/-- The URL side-channel of the child loop equals the pure concatenation
collection, appended to the incoming accumulator. -/
theorem extractKids_urls : ∀ (l : List AdfV) (text : Str) (urls : List Str),
    (extractKids l text urls).2 = urls ++ reachableUrlsKids l
  | [], text, urls => by simp [extractKids, reachableUrlsKids]
  | (AdfV.node ty txt marks aUrl aText children) :: rest, text, urls => by
      simp only [extractKids, reachableUrlsKids]
      by_cases h1 : ty = strLit "text"
      · rw [if_pos h1, extractKids_urls rest _ _]
        cases children <;> simp [reachableUrls, h1, List.append_assoc]
      · rw [if_neg h1]
        by_cases h2 : ty = strLit "paragraph"
        · rw [if_pos h2, extractKids_urls rest _ _, extractNode_urls _ urls]
          cases children <;>
            simp [reachableUrls, h2, AdfV.children, List.append_assoc,
              show strLit "paragraph" ≠ strLit "text" from by decide]
        · rw [if_neg h2]
          by_cases h3 : ty = strLit "hardBreak"
          · rw [if_pos h3, extractKids_urls rest _ _]
            cases children <;>
              simp [reachableUrls, h3,
                show strLit "hardBreak" ≠ strLit "text" from by decide,
                show strLit "hardBreak" ≠ strLit "paragraph" from by decide]
          · rw [if_neg h3]
            by_cases h4 : ty = strLit "mention"
            · rw [if_pos h4, extractKids_urls rest _ _]
              cases children <;>
                simp [reachableUrls, h4,
                  show strLit "mention" ≠ strLit "text" from by decide,
                  show strLit "mention" ≠ strLit "paragraph" from by decide,
                  show strLit "mention" ≠ strLit "hardBreak" from by decide]
            · rw [if_neg h4]
              by_cases h5 : (ty = strLit "mediaGroup" || ty = strLit "mediaSingle") = true
              · rw [if_pos h5, extractKids_urls rest _ _]
                cases children <;> simp [reachableUrls, h1, h2, h3, h4, h5]
              · rw [if_neg h5]
                by_cases h6 : ty ∈ cardTys
                · rw [if_pos h6]
                  by_cases h7 : jsTruthy aUrl = true
                  · rw [if_pos h7, extractKids_urls rest _ _]
                    cases children <;>
                      simp [reachableUrls, h1, h2, h3, h4, h5, h6, h7,
                        List.append_assoc]
                  · rw [if_neg h7, extractKids_urls rest _ _]
                    cases children <;>
                      simp [reachableUrls, h1, h2, h3, h4, h5, h6, h7]
                · rw [if_neg h6]
                  by_cases h8 : children.isSome = true
                  · rw [if_pos h8, extractKids_urls rest _ _, extractNode_urls _ urls]
                    cases children with
                    | none => simp at h8
                    | some cs =>
                      simp [reachableUrls, h1, h2, h3, h4, h5, h6, AdfV.children,
                        List.append_assoc]
                  · rw [if_neg h8, extractKids_urls rest _ _]
                    cases children with
                    | none => simp [reachableUrls, h1, h2, h3, h4, h5, h6]
                    | some cs => simp at h8

end

/-- C6 counterexample: `extractText` does not descend into media nodes, so
a `link`-marked Text node nested under a `mediaSingle` contributes nothing
to the URL side-channel, while the claimed collection (`deepUrls`, every
link-mark href anywhere in the tree) contains its href — the claimed
equality fails and a link-marked href is missing from the result. -/
theorem claim_C6_counterexample :
    (extractNode c6Doc []).2 = [] ∧
    deepUrls c6Doc = [strLit "http://x"] ∧
    strLit "http://x" ∉ (extractNode c6Doc []).2 :=
  ⟨by rfl, by rfl, by decide⟩

/-- C6 amended: for every document, `decode(D).urls` equals the pure
document-order concatenation (`reachableUrlsKids`, duplicates preserved) of
the truthy link-mark hrefs of Text-typed nodes and the truthy
embed/smart-link URLs that the traversal reaches — it does not descend into
media, mention, hardBreak, or Text-typed nodes' children, and empty-string
hrefs/URLs are omitted.  The threaded `urls` accumulator is append-only. -/
theorem claim_C6_amended :
    (∀ (cs : List AdfV) (urls : List Str),
       (extractText (.nodeI (docNode cs)) urls).2 = urls ++ reachableUrlsKids cs) ∧
    (∀ (n : AdfV) (urls : List Str),
       (extractNode n urls).2 = urls ++
         (match n.children with
          | none => []
          | some cs => reachableUrlsKids cs)) := by
  constructor
  · intro cs urls
    have h := extractNode_urls (docNode cs) urls
    simpa [docNode, AdfV.children, extractText] using h
  · exact extractNode_urls

theorem splitOnCharAux_ne_nil (sep : Char) :
    ∀ (s acc : Str), splitOnCharAux sep s acc ≠ [] := by
  intro s
  induction s with
  | nil => intro acc; simp [splitOnCharAux]
  | cons c rest ih =>
    intro acc
    unfold splitOnCharAux
    split_ifs
    · simp
    · exact ih _

theorem joinSep_splitOnCharAux (sep : Char) :
    ∀ (s acc : Str), joinSep sep (splitOnCharAux sep s acc) = acc.reverse ++ s := by
  intro s
  induction s with
  | nil => intro acc; simp [splitOnCharAux, joinSep]
  | cons c rest ih =>
    intro acc
    unfold splitOnCharAux
    split_ifs with hc
    · subst hc
      cases hrest : splitOnCharAux c rest [] with
      | nil => exact absurd hrest (splitOnCharAux_ne_nil c rest [])
      | cons h t =>
        rw [joinSep]
        have h2 := ih []
        rw [hrest] at h2
        simp only [List.reverse_nil, List.nil_append] at h2
        rw [h2]
    · have := ih (c :: acc)
      rw [this]
      simp

theorem joinSep_splitOnChar (sep : Char) (s : Str) :
    joinSep sep (splitOnChar sep s) = s := by
  have := joinSep_splitOnCharAux sep s []
  simpa [splitOnChar] using this

theorem splitOnCharAux_acc (sep : Char) :
    ∀ (s acc : Str), ∃ h t, splitOnCharAux sep s [] = h :: t ∧
      splitOnCharAux sep s acc = (acc.reverse ++ h) :: t := by
  intro s
  induction s with
  | nil => intro acc; exact ⟨[], [], rfl, by simp [splitOnCharAux]⟩
  | cons c rest ih =>
    intro acc
    by_cases hc : c = sep
    · subst hc
      refine ⟨[], splitOnCharAux c rest [], ?_, ?_⟩ <;> simp [splitOnCharAux]
    · obtain ⟨h, t, h1, h2⟩ := ih [c]
      refine ⟨c :: h, t, ?_, ?_⟩
      · show splitOnCharAux sep (c :: rest) [] = (c :: h) :: t
        unfold splitOnCharAux
        rw [if_neg hc]
        simpa using h2
      · show splitOnCharAux sep (c :: rest) acc = (acc.reverse ++ c :: h) :: t
        unfold splitOnCharAux
        rw [if_neg hc]
        obtain ⟨h2', t2', h3, h4⟩ := ih (c :: acc)
        rw [h1] at h3
        injection h3 with e1 e2
        subst e1
        subst e2
        rw [h4]
        simp

theorem splitOnChar_cons_sep (sep : Char) (s : Str) :
    splitOnChar sep (sep :: s) = [] :: splitOnChar sep s := by
  simp [splitOnChar, splitOnCharAux]

theorem splitOnChar_cons_ne {sep c : Char} (hc : c ≠ sep) (s : Str) :
    ∃ h t, splitOnChar sep s = h :: t ∧
      splitOnChar sep (c :: s) = (c :: h) :: t := by
  obtain ⟨h, t, h1, h2⟩ := splitOnCharAux_acc sep s [c]
  refine ⟨h, t, h1, ?_⟩
  show splitOnCharAux sep (c :: s) [] = (c :: h) :: t
  unfold splitOnCharAux
  rw [if_neg hc]
  simpa using h2

theorem splitOnCharAux_cons (sep c : Char) (rest acc : Str) :
    splitOnCharAux sep (c :: rest) acc =
      if c = sep then acc.reverse :: splitOnCharAux sep rest []
      else splitOnCharAux sep rest (c :: acc) := rfl

theorem splitOnCharAux_append_sep (sep : Char) :
    ∀ (a acc b : Str),
      splitOnCharAux sep (a ++ sep :: b) acc =
        splitOnCharAux sep a acc ++ splitOnCharAux sep b [] := by
  intro a
  induction a with
  | nil => intro acc b; simp [splitOnCharAux_cons, splitOnCharAux]
  | cons c a' ih =>
    intro acc b
    rw [List.cons_append, splitOnCharAux_cons, splitOnCharAux_cons]
    split_ifs with hc
    · rw [ih []]
      simp
    · exact ih (c :: acc) b

theorem splitOnChar_append_sep (sep : Char) (a b : Str) :
    splitOnChar sep (a ++ sep :: b) =
      splitOnChar sep a ++ splitOnChar sep b :=
  splitOnCharAux_append_sep sep a [] b

theorem normLines_nil : normLines [] = [] := by decide

theorem normLines_cons_of_ws {c : Char} (hc : isWs c = true) (s : Str) :
    normLines (c :: s) = normLines s := by
  by_cases hnl : c = newlineChar
  · subst hnl
    unfold normLines
    rw [splitOnChar_cons_sep]
    simp [trimWS]
  · obtain ⟨h, t, h1, h2⟩ := splitOnChar_cons_ne hnl s
    unfold normLines
    rw [h1, h2]
    simp only [List.map_cons, List.filter_cons]
    have htr : trimWS (c :: h) = trimWS h := by
      unfold trimWS
      rw [List.dropWhile_cons, if_pos hc]
    rw [htr]

theorem normLines_append_sep (a b : Str) :
    normLines (a ++ newlineChar :: b) = normLines a ++ normLines b := by
  unfold normLines
  rw [splitOnChar_append_sep]
  simp [List.filter_append]

theorem normLines_ws_append {pre : Str} (hp : ∀ c ∈ pre, isWs c = true) (s : Str) :
    normLines (pre ++ s) = normLines s := by
  induction pre with
  | nil => rfl
  | cons c rest ih =>
    rw [List.cons_append, normLines_cons_of_ws (hp c (by simp))]
    exact ih (fun x hx => hp x (by simp [hx]))

theorem normLines_all_ws {s : Str} (hs : ∀ c ∈ s, isWs c = true) :
    normLines s = [] := by
  have := normLines_ws_append hs ([] : Str)
  simpa [normLines_nil] using this

theorem splitOnCharAux_no_sep (sep : Char) :
    ∀ (b acc : Str), (∀ c ∈ b, c ≠ sep) → splitOnCharAux sep b acc = [acc.reverse ++ b] := by
  intro b
  induction b with
  | nil => intro acc _; simp [splitOnCharAux]
  | cons c rest ih =>
    intro acc h
    rw [splitOnCharAux_cons, if_neg (h c (by simp))]
    rw [ih (c :: acc) (fun x hx => h x (by simp [hx]))]
    simp

theorem splitOnChar_append_no_sep (sep : Char) (b : Str)
    (hb : ∀ c ∈ b, c ≠ sep) :
    ∀ a : Str, ∃ init last, splitOnChar sep a = init ++ [last] ∧
      splitOnChar sep (a ++ b) = init ++ [last ++ b] := by
  intro a
  induction a with
  | nil =>
    refine ⟨[], [], by simp [splitOnChar, splitOnCharAux], ?_⟩
    simpa [splitOnChar] using splitOnCharAux_no_sep sep b [] hb
  | cons c a' ih =>
    obtain ⟨init, last, h1, h2⟩ := ih
    by_cases hc : c = sep
    · subst hc
      refine ⟨[] :: init, last, ?_, ?_⟩
      · rw [splitOnChar_cons_sep, h1]; rfl
      · rw [List.cons_append, splitOnChar_cons_sep, h2]; rfl
    · obtain ⟨h, t, h3, h4⟩ := splitOnChar_cons_ne hc a'
      obtain ⟨h5, t5, h6, h7⟩ := splitOnChar_cons_ne hc (a' ++ b)
      cases init with
      | nil =>
        simp only [List.nil_append] at h1 h2
        have e1 : ([last] : List Str) = h :: t := h1.symm.trans h3
        have e2 : ([last ++ b] : List Str) = h5 :: t5 := h2.symm.trans h6
        injection e1 with f1 f2
        injection e2 with f3 f4
        refine ⟨[], c :: last, ?_, ?_⟩
        · rw [h4, ← f1, ← f2]; rfl
        · rw [List.cons_append, h7, ← f3, ← f4]; rfl
      | cons i0 irest =>
        simp only [List.cons_append] at h1 h2
        have e1 : (i0 :: (irest ++ [last]) : List Str) = h :: t := h1.symm.trans h3
        have e2 : (i0 :: (irest ++ [last ++ b]) : List Str) = h5 :: t5 := h2.symm.trans h6
        injection e1 with f1 f2
        injection e2 with f3 f4
        refine ⟨(c :: i0) :: irest, last, ?_, ?_⟩
        · rw [h4, ← f1, ← f2]; rfl
        · rw [List.cons_append, h7, ← f3, ← f4]; rfl

theorem trimWS_append_ws {t : Str} (ht : ∀ c ∈ t, isWs c = true) (x : Str) :
    trimWS (x ++ t) = trimWS x := by
  unfold trimWS
  have htnil : t.dropWhile isWs = [] := List.dropWhile_eq_nil_iff.mpr ht
  have htrnil : t.reverse.dropWhile isWs = [] :=
    List.dropWhile_eq_nil_iff.mpr (fun c hc => ht c (by simpa using hc))
  by_cases hx : x.dropWhile isWs = []
  · rw [List.dropWhile_append, hx]
    simp [htnil, hx]
  · have hcond : (List.dropWhile isWs x).isEmpty ≠ true := by
      simpa [List.isEmpty_iff] using hx
    rw [List.dropWhile_append, if_neg hcond]
    rw [List.reverse_append, List.dropWhile_append, htrnil]
    simp

theorem normLines_snoc_ws {c : Char} (hc : isWs c = true) (s : Str) :
    normLines (s ++ [c]) = normLines s := by
  by_cases hnl : c = newlineChar
  · subst hnl
    have := normLines_append_sep s []
    simpa [normLines_nil] using this
  · obtain ⟨init, last, h1, h2⟩ := splitOnChar_append_no_sep newlineChar [c]
      (by intro x hx; simp at hx; subst hx; exact hnl) s
    unfold normLines
    rw [h1, h2]
    simp only [List.map_append, List.filter_append, List.map_cons, List.map_nil]
    rw [trimWS_append_ws (by intro x hx; simp at hx; subst hx; exact hc) last]

theorem normLines_append_ws {post : Str} (hp : ∀ c ∈ post, isWs c = true) (s : Str) :
    normLines (s ++ post) = normLines s := by
  induction post using List.reverseRecOn with
  | nil => rw [List.append_nil]
  | append_singleton xs x ih =>
    rw [← List.append_assoc, normLines_snoc_ws (hp x (by simp))]
    exact ih (fun c hc => hp c (by simp [hc]))

theorem dropWhile_suffix_decomp (p : Char → Bool) (l : Str) :
    ∃ pre, l = pre ++ l.dropWhile p ∧ ∀ c ∈ pre, p c = true :=
  ⟨l.takeWhile p, (List.takeWhile_append_dropWhile p l).symm,
    fun _ hc => List.mem_takeWhile_imp hc⟩

theorem trim_decomp (s : Str) :
    ∃ pre post, s = (pre ++ trimWS s) ++ post ∧
      (∀ c ∈ pre, isWs c = true) ∧ (∀ c ∈ post, isWs c = true) := by
  obtain ⟨pre, hpre, hpw⟩ := dropWhile_suffix_decomp isWs s
  obtain ⟨pre2, hpre2, hpw2⟩ := dropWhile_suffix_decomp isWs (s.dropWhile isWs).reverse
  refine ⟨pre, pre2.reverse, ?_, hpw, ?_⟩
  · have hd : s.dropWhile isWs = trimWS s ++ pre2.reverse := by
      have := congrArg List.reverse hpre2
      simpa [trimWS] using this
    rw [List.append_assoc, ← hd]
    exact hpre
  · intro c hc
    exact hpw2 c (by simpa using hc)

theorem normLines_trim (s : Str) : normLines (trimWS s) = normLines s := by
  obtain ⟨pre, post, hdecomp, hpre, hpost⟩ := trim_decomp s
  conv_rhs => rw [hdecomp]
  rw [normLines_append_ws hpost, normLines_ws_append hpre]

theorem splitBlocksGo_nl_nl (acc rest2 : Str) :
    splitBlocksGo acc (newlineChar :: newlineChar :: rest2)
      = acc.reverse :: splitBlocksSep rest2 := by
  simp [splitBlocksGo]

theorem splitBlocksGo_nl_one (acc : Str) :
    splitBlocksGo acc [newlineChar] = [(newlineChar :: acc).reverse] := by
  simp [splitBlocksGo]

theorem splitBlocksGo_nl_ne {d : Char} (hd : d ≠ newlineChar) (acc rest2 : Str) :
    splitBlocksGo acc (newlineChar :: d :: rest2)
      = splitBlocksGo (newlineChar :: acc) (d :: rest2) := by
  simp [splitBlocksGo, hd]

theorem splitBlocksGo_ne {c : Char} (hc : c ≠ newlineChar) (acc rest : Str) :
    splitBlocksGo acc (c :: rest) = splitBlocksGo (c :: acc) rest := by
  cases rest with
  | nil => simp [splitBlocksGo, hc]
  | cons d rest2 => simp [splitBlocksGo, hc]

theorem splitBlocksSep_cons_nl (rest : Str) :
    splitBlocksSep (newlineChar :: rest) = splitBlocksSep rest := by
  simp [splitBlocksSep]

theorem splitBlocksSep_cons_ne {c : Char} (hc : c ≠ newlineChar) (rest : Str) :
    splitBlocksSep (c :: rest) = splitBlocksGo [c] rest := by
  simp [splitBlocksSep, hc]

theorem splitBlocks_norm_aux :
    ∀ n : Nat, ∀ s : Str, s.length ≤ n →
      (∀ acc : Str,
        ((splitBlocksGo acc s).map normLines).flatten
          = normLines (acc.reverse ++ s)) ∧
      (((splitBlocksSep s).map normLines).flatten = normLines s) := by
  intro n
  induction n with
  | zero =>
    intro s hs
    have hnil : s = [] := List.length_eq_zero.mp (Nat.le_zero.mp hs)
    subst hnil
    refine ⟨fun acc => ?_, by simp [splitBlocksSep, normLines_nil]⟩
    rw [List.append_nil]
    simp [splitBlocksGo]
  | succ m ih =>
    intro s hs
    cases s with
    | nil =>
      refine ⟨fun acc => ?_, by simp [splitBlocksSep, normLines_nil]⟩
      rw [List.append_nil]
      simp [splitBlocksGo]
    | cons c rest =>
      have hrest : rest.length ≤ m := Nat.le_of_succ_le_succ hs
      constructor
      · intro acc
        by_cases hc : c = newlineChar
        · subst hc
          cases rest with
          | nil =>
            rw [splitBlocksGo_nl_one]
            simp only [List.map_cons, List.map_nil, List.flatten_cons,
              List.flatten_nil, List.append_nil, List.reverse_cons]
          | cons d rest2 =>
            by_cases hd : d = newlineChar
            · subst hd
              have h2 : rest2.length ≤ m := by
                have : rest2.length + 1 ≤ m := hrest
                exact Nat.le_of_succ_le this
              rw [splitBlocksGo_nl_nl, List.map_cons, List.flatten_cons,
                (ih rest2 h2).2, normLines_append_sep,
                normLines_cons_of_ws (show isWs newlineChar = true from by decide)]
            · rw [splitBlocksGo_nl_ne hd, (ih (d :: rest2) hrest).1 (newlineChar :: acc),
                List.reverse_cons]
              simp [List.append_assoc]
        · rw [splitBlocksGo_ne hc, (ih rest hrest).1 (c :: acc), List.reverse_cons]
          simp [List.append_assoc]
      · by_cases hc : c = newlineChar
        · subst hc
          rw [splitBlocksSep_cons_nl, (ih rest hrest).2,
            normLines_cons_of_ws (show isWs newlineChar = true from by decide)]
        · rw [splitBlocksSep_cons_ne hc, (ih rest hrest).1 [c]]
          rfl

theorem normLines_splitBlocks (s : Str) :
    ((splitBlocks s).map normLines).flatten = normLines s := by
  have := (splitBlocks_norm_aux s.length s (Nat.le_refl _)).1 []
  simpa [splitBlocks] using this

theorem splitBlocksPieces_aux :
    ∀ n : Nat, ∀ s : Str, s.length ≤ n →
      (∀ acc p, p ∈ splitBlocksGo acc s → p <:+: (acc.reverse ++ s)) ∧
      (∀ p, p ∈ splitBlocksSep s → p <:+: s) := by
  intro n
  induction n with
  | zero =>
    intro s hs
    have hnil : s = [] := List.length_eq_zero.mp (Nat.le_zero.mp hs)
    subst hnil
    constructor
    · intro acc p hp
      simp [splitBlocksGo] at hp
      subst hp
      rw [List.append_nil]
    · intro p hp
      simp [splitBlocksSep] at hp
      subst hp
      exact List.infix_rfl
  | succ m ih =>
    intro s hs
    cases s with
    | nil =>
      constructor
      · intro acc p hp
        simp [splitBlocksGo] at hp
        subst hp
        rw [List.append_nil]
      · intro p hp
        simp [splitBlocksSep] at hp
        subst hp
        exact List.infix_rfl
    | cons c rest =>
      have hrest : rest.length ≤ m := Nat.le_of_succ_le_succ hs
      constructor
      · intro acc p hp
        by_cases hc : c = newlineChar
        · subst hc
          cases rest with
          | nil =>
            rw [splitBlocksGo_nl_one] at hp
            simp at hp
            subst hp
            exact List.infix_rfl
          | cons d rest2 =>
            by_cases hd : d = newlineChar
            · subst hd
              rw [splitBlocksGo_nl_nl] at hp
              rcases List.mem_cons.mp hp with h | h
              · subst h
                exact ((List.prefix_append acc.reverse _).isInfix)
              · have h2 : rest2.length ≤ m := by
                  have : rest2.length + 1 ≤ m := hrest
                  exact Nat.le_of_succ_le this
                have := (ih rest2 h2).2 p h
                exact this.trans ⟨acc.reverse ++ [newlineChar, newlineChar], [], by simp⟩
            · rw [splitBlocksGo_nl_ne hd] at hp
              have := (ih (d :: rest2) hrest).1 (newlineChar :: acc) p hp
              rw [List.reverse_cons] at this
              simpa [List.append_assoc] using this
        · rw [splitBlocksGo_ne hc] at hp
          have := (ih rest hrest).1 (c :: acc) p hp
          rw [List.reverse_cons] at this
          simpa [List.append_assoc] using this
      · intro p hp
        by_cases hc : c = newlineChar
        · subst hc
          rw [splitBlocksSep_cons_nl] at hp
          exact ((ih rest hrest).2 p hp).trans ⟨[newlineChar], [], by simp⟩
        · rw [splitBlocksSep_cons_ne hc] at hp
          exact (ih rest hrest).1 [c] p hp

theorem splitBlocks_piece {p T : Str} (hp : p ∈ splitBlocks T) : p <:+: T := by
  have := (splitBlocksPieces_aux T.length T (Nat.le_refl _)).1 [] p hp
  simpa using this

theorem mem_joinSep_infix (sep : Char) :
    ∀ (ps : List Str) (x : Str), x ∈ ps → x <:+: joinSep sep ps := by
  intro ps
  induction ps with
  | nil => intro x hx; cases hx
  | cons p rest ih =>
    intro x hx
    cases rest with
    | nil =>
      simp at hx
      subst hx
      exact List.infix_rfl
    | cons q rest2 =>
      have e : joinSep sep (p :: q :: rest2) = p ++ sep :: joinSep sep (q :: rest2) := by
        simp [joinSep]
      rcases List.mem_cons.mp hx with h | h
      · subst h
        rw [e]
        exact ⟨[], sep :: joinSep sep (q :: rest2), by simp⟩
      · rw [e]
        exact (ih x h).trans ⟨p ++ [sep], [], by simp⟩

theorem joinSep_eq_head_flatten (sep : Char) :
    ∀ (rest : List Str) (l0 : Str),
      joinSep sep (l0 :: rest) = l0 ++ (rest.map (fun li => sep :: li)).flatten := by
  intro rest
  induction rest with
  | nil => intro l0; simp [joinSep]
  | cons q rest2 ih =>
    intro l0
    have e : joinSep sep (l0 :: q :: rest2) = l0 ++ sep :: joinSep sep (q :: rest2) := by
      simp [joinSep]
    rw [e, ih q]
    simp

theorem cleanB_tail {c : Char} {l : Str} (h : cleanB (c :: l) = true) :
    cleanB l = true := by
  cases hcl : cleanB l with
  | true => rfl
  | false =>
    simp only [cleanB, hcl, Bool.and_false, ite_self] at h
    exact h

theorem cleanB_head {d : Char} {l : Str} (h : cleanB (d :: l) = true) :
    ¬(d = backtickChar ∨ d = '*') := by
  intro hd
  have hc : (d = backtickChar || d = '*') = true := by
    rcases hd with h1 | h1 <;> simp [h1]
  simp only [cleanB] at h
  rw [if_pos hc] at h
  cases h

theorem cleanB_at {e : Char} {l2 : Str} (h : cleanB ('@' :: e :: l2) = true) :
    isUpperAZ e = false := by
  have h2 : ((!isUpperAZ e) && cleanB (e :: l2)) = true := h
  cases hu : isUpperAZ e with
  | false => rfl
  | true => rw [hu] at h2; simp at h2

theorem cleanB_build {d : Char} {l : Str}
    (h1 : ¬(d = backtickChar ∨ d = '*'))
    (h2 : d = '@' → (match l with | e :: _ => isUpperAZ e = false | [] => True))
    (h3 : cleanB l = true) : cleanB (d :: l) = true := by
  have hd1 : d ≠ backtickChar := fun e => h1 (Or.inl e)
  have hd2 : d ≠ '*' := fun e => h1 (Or.inr e)
  simp only [cleanB]
  rw [if_neg (by simp [hd1, hd2])]
  by_cases ha : d = '@'
  · rw [if_pos ha]
    cases l with
    | nil => simpa using h3
    | cons e l2 =>
      have hup := h2 ha
      show ((!isUpperAZ e) && cleanB (e :: l2)) = true
      simp [hup, h3]
  · rw [if_neg ha]
    exact h3

theorem cleanB_suffix : ∀ (a l : Str), cleanB (a ++ l) = true → cleanB l = true := by
  intro a
  induction a with
  | nil => intro l h; exact h
  | cons c rest ih => intro l h; exact ih l (cleanB_tail h)

theorem cleanB_prefix : ∀ (x c : Str), cleanB (x ++ c) = true → cleanB x = true := by
  intro x
  induction x with
  | nil => intro c h; rfl
  | cons d xr ih =>
    intro c h
    rw [List.cons_append] at h
    refine cleanB_build (cleanB_head h) ?_ (ih c (cleanB_tail h))
    intro ha
    cases xr with
    | nil => trivial
    | cons e xr2 =>
      subst ha
      rw [List.cons_append] at h
      exact cleanB_at h

theorem cleanB_infixClosed {x T : Str} (hT : cleanB T = true) (hx : x <:+: T) :
    cleanB x = true := by
  obtain ⟨s, t, rfl⟩ := hx
  rw [List.append_assoc] at hT
  exact cleanB_prefix x t (cleanB_suffix s (x ++ t) hT)

theorem tryInlineAt_none : ∀ {l : Str}, cleanB l = true → tryInlineAt l = none := by
  intro l h
  cases l with
  | nil => rfl
  | cons c rest =>
    have hne := cleanB_head h
    have hb : c ≠ backtickChar := fun e => hne (Or.inl e)
    have hs : c ≠ '*' := fun e => hne (Or.inr e)
    simp only [tryInlineAt]
    rw [if_neg hb, if_neg hs]
    by_cases ha : c = '@'
    · rw [if_pos ha]
      subst ha
      cases rest with
      | nil => rfl
      | cons d rest2 =>
        have hup := cleanB_at h
        simp [matchMentionName, hup]
    · rw [if_neg ha]

theorem scanInlineAux_clean (resolve : Str → Option UserRes) :
    ∀ (fuel : Nat) (pending l : Str), cleanB l = true →
      scanInlineAux resolve fuel pending l =
        if pending.reverse ++ l = [] then []
        else [mkText (pending.reverse ++ l)] := by
  intro fuel
  induction fuel with
  | zero =>
    intro pending l _
    cases l with
    | nil =>
      simp only [scanInlineAux]
      by_cases hp : pending = []
      · subst hp; simp
      · rw [if_neg hp, if_neg (by simp [hp]), List.append_nil]
    | cons c rest => simp only [scanInlineAux]
  | succ f ih =>
    intro pending l hc
    cases l with
    | nil =>
      simp only [scanInlineAux]
      by_cases hp : pending = []
      · subst hp; simp
      · rw [if_neg hp, if_neg (by simp [hp]), List.append_nil]
    | cons c rest =>
      have hnone := tryInlineAt_none hc
      simp only [scanInlineAux, hnone]
      rw [ih (c :: pending) rest (cleanB_tail hc), List.reverse_cons,
        List.append_assoc]
      rfl

theorem parseInline_clean (resolve : Str → Option UserRes) {line : Str}
    (h : cleanB line = true) :
    parseInlineFormatting resolve line = [mkText line] := by
  unfold parseInlineFormatting
  dsimp only
  rw [scanInlineAux_clean resolve line.length [] line h]
  cases line with
  | nil => simp
  | cons c rest => simp

theorem extractKids_mkText (s : Str) (rest : List AdfV) (text : Str)
    (urls : List Str) :
    extractKids (mkText s :: rest) text urls = extractKids rest (text ++ s) urls := by
  simp [extractKids, mkText, linkHrefs]

theorem extractKids_hardBreak (rest : List AdfV) (text : Str) (urls : List Str) :
    extractKids (mkHardBreak :: rest) text urls =
      extractKids rest (text ++ [newlineChar]) urls := by
  have h1 : strLit "hardBreak" ≠ strLit "text" := by decide
  have h2 : strLit "hardBreak" ≠ strLit "paragraph" := by decide
  simp [extractKids, mkHardBreak, h1, h2]

theorem extractKids_paragraph (content : List AdfV) (rest : List AdfV)
    (text : Str) (urls : List Str) :
    extractKids (mkParagraph content :: rest) text urls =
      extractKids rest
        (text ++ (extractKids content [] urls).1 ++ [newlineChar])
        (extractKids content [] urls).2 := by
  have h1 : strLit "paragraph" ≠ strLit "text" := by decide
  simp [extractKids, extractNode, mkParagraph, h1]

theorem extractKids_append :
    ∀ (A B : List AdfV) (text : Str) (urls : List Str),
      extractKids (A ++ B) text urls =
        extractKids B (extractKids A text urls).1 (extractKids A text urls).2 := by
  intro A
  induction A with
  | nil => intro B text urls; simp [extractKids]
  | cons n A2 ih =>
    intro B text urls
    cases n with
    | node ty txt marks aUrl aText children =>
      rw [List.cons_append]
      simp only [extractKids]
      split_ifs <;> simp only [ih]

theorem extract_hbLines (resolve : Str → Option UserRes) :
    ∀ (ls : List Str), (∀ l ∈ ls, cleanB l = true) →
      ∀ (text : Str) (urls : List Str),
        extractKids
            ((ls.map (fun li => mkHardBreak :: parseInlineFormatting resolve li)).flatten)
            text urls
          = (text ++ (ls.map (fun li => newlineChar :: li)).flatten, urls) := by
  intro ls
  induction ls with
  | nil => intro _ text urls; simp [extractKids]
  | cons li ls2 ih =>
    intro hcl text urls
    rw [List.map_cons, List.flatten_cons,
      parseInline_clean resolve (hcl li (by simp))]
    simp only [List.cons_append, List.singleton_append, List.nil_append]
    rw [extractKids_hardBreak, extractKids_mkText,
      ih (fun l hl => hcl l (by simp [hl])) ((text ++ [newlineChar]) ++ li) urls]
    simp

theorem extract_paraContent (resolve : Str → Option UserRes) :
    ∀ (lines : List Str), lines ≠ [] → (∀ l ∈ lines, cleanB l = true) →
      ∀ (text : Str) (urls : List Str),
        extractKids (paragraphContentOf resolve lines) text urls
          = (text ++ joinSep newlineChar lines, urls) := by
  intro lines hne hcl text urls
  cases lines with
  | nil => exact absurd rfl hne
  | cons l0 rest =>
    simp only [paragraphContentOf]
    rw [parseInline_clean resolve (hcl l0 (by simp))]
    simp only [List.singleton_append]
    rw [extractKids_mkText,
      extract_hbLines resolve rest (fun l hl => hcl l (by simp [hl])) (text ++ l0) urls,
      joinSep_eq_head_flatten]
    simp

theorem extract_block (resolve : Str → Option UserRes) {b : Str}
    (hcl : cleanB b = true)
    (hnb : trimWS b ≠ [] →
      isBulletLines (splitOnChar newlineChar (trimWS b)) = false) :
    ∀ (text : Str) (urls : List Str),
      extractKids (blockToContent resolve b) text urls
        = (text ++ (if trimWS b = [] then [] else trimWS b ++ [newlineChar]), urls) := by
  intro text urls
  by_cases htr : trimWS b = []
  · rw [if_pos htr]
    simp only [blockToContent]
    rw [if_pos htr]
    simp [extractKids]
  · rw [if_neg htr]
    have hclt : cleanB (trimWS b) = true := by
      obtain ⟨pre, post, hdecomp, _, _⟩ := trim_decomp b
      exact cleanB_infixClosed hcl ⟨pre, post, hdecomp.symm⟩
    have hlines : ∀ l ∈ splitOnChar newlineChar (trimWS b), cleanB l = true := by
      intro l hl
      refine cleanB_infixClosed hclt ?_
      have := mem_joinSep_infix newlineChar _ l hl
      rwa [joinSep_splitOnChar] at this
    have hlne : splitOnChar newlineChar (trimWS b) ≠ [] :=
      splitOnCharAux_ne_nil newlineChar (trimWS b) []
    simp only [blockToContent]
    rw [if_neg htr, if_neg (by simp [hnb htr])]
    rw [extractKids_paragraph,
      extract_paraContent resolve _ hlne hlines [] urls,
      joinSep_splitOnChar]
    simp [extractKids]

theorem extract_blocks (resolve : Str → Option UserRes) :
    ∀ (bs : List Str),
      (∀ b ∈ bs, cleanB b = true ∧
        (trimWS b ≠ [] →
          isBulletLines (splitOnChar newlineChar (trimWS b)) = false)) →
      ∀ (text : Str) (urls : List Str),
        extractKids ((bs.map (blockToContent resolve)).flatten) text urls
          = (text ++
              (bs.map (fun b =>
                if trimWS b = [] then [] else trimWS b ++ [newlineChar])).flatten,
             urls) := by
  intro bs
  induction bs with
  | nil => intro _ text urls; simp [extractKids]
  | cons b bs2 ih =>
    intro h text urls
    rw [List.map_cons, List.flatten_cons, extractKids_append,
      extract_block resolve (h b (by simp)).1 (h b (by simp)).2]
    rw [ih (fun x hx => h x (by simp [hx]))]
    simp

theorem normLines_decBlocks :
    ∀ (bs : List Str),
      normLines
          ((bs.map (fun b =>
            if trimWS b = [] then [] else trimWS b ++ [newlineChar])).flatten)
        = (bs.map normLines).flatten := by
  intro bs
  induction bs with
  | nil => exact normLines_nil
  | cons b bs2 ih =>
    rw [List.map_cons, List.flatten_cons, List.map_cons, List.flatten_cons]
    by_cases htr : trimWS b = []
    · rw [if_pos htr, List.nil_append, ih]
      have hb : normLines b = [] := by
        rw [← normLines_trim b, htr, normLines_nil]
      rw [hb, List.nil_append]
    · rw [if_neg htr, List.append_assoc, List.singleton_append,
        normLines_append_sep, normLines_trim, ih]

/-- C7 counterexample: the plain text `- a` contains no backtick, no
asterisk and no capitalized mention token, yet decoding the document built
by `buildCommentADF` yields `a` followed by a newline: the bullet branch of
the encoder drops the `- ` marker, so the visible text content (the trimmed
nonempty lines) of the round trip differs from that of the input. -/
theorem claim_C7_counterexample :
    cleanB (strLit "- a") = true ∧
    (extractNode (docNode (buildCommentADF (fun _ => none) (strLit "- a"))) []).1
      = strLit "a" ++ [newlineChar] ∧
    normLines (strLit "a" ++ [newlineChar]) ≠ normLines (strLit "- a") := by
  refine ⟨by decide, by decide, by decide⟩

/-- C7 (amended): for every plain-text input with no inline markup (no
backtick, no asterisk, no `@` followed by a capital letter) in which no
block consists entirely of `- ` bullet lines, decoding the document
produced by `buildCommentADF` with `extractText` reproduces the input's
visible text content up to whitespace normalization at line and block
boundaries: the trimmed nonempty lines of the decoded text equal those of
the input.  The original claim omits the bullet proviso and is refuted by
the input `- a`. -/
theorem claim_C7_amended (resolve : Str → Option UserRes) (T : Str)
    (hclean : cleanB T = true) (hnb : noBulletBlocks T = true) :
    normLines (extractNode (docNode (buildCommentADF resolve T)) []).1
      = normLines T := by
  have hall : ∀ b ∈ splitBlocks T,
      ((trimWS b).isEmpty
        || !isBulletLines (splitOnChar newlineChar (trimWS b))) = true :=
    List.all_eq_true.mp hnb
  have hblocks : ∀ b ∈ splitBlocks T, cleanB b = true ∧
      (trimWS b ≠ [] →
        isBulletLines (splitOnChar newlineChar (trimWS b)) = false) := by
    intro b hb
    refine ⟨cleanB_infixClosed hclean (splitBlocks_piece hb), ?_⟩
    intro htr
    have h2 := hall b hb
    simp only [Bool.or_eq_true, List.isEmpty_iff, Bool.not_eq_true'] at h2
    rcases h2 with h2 | h2
    · exact absurd h2 htr
    · exact h2
  simp only [buildCommentADF]
  by_cases hce :
      (((splitBlocks T).map (blockToContent resolve)).flatten).isEmpty = true
  · rw [if_pos hce]
    simp only [docNode, extractNode]
    rw [extractKids_paragraph, extractKids_mkText]
    simp only [extractKids]
    simp only [List.nil_append]
    exact normLines_snoc_ws (by decide) T
  · rw [if_neg hce]
    simp only [docNode, extractNode]
    rw [extract_blocks resolve (splitBlocks T) hblocks [] []]
    rw [List.nil_append, normLines_decBlocks, normLines_splitBlocks]

/-- Witness for the amended C7 at the concrete two-block input
`hello\n\nworld`. -/
theorem claim_C7_amended_witness :
    cleanB (strLit "hello\n\nworld") = true ∧
    noBulletBlocks (strLit "hello\n\nworld") = true ∧
    normLines
        (extractNode
          (docNode (buildCommentADF (fun _ => none) (strLit "hello\n\nworld"))) []).1
      = normLines (strLit "hello\n\nworld") :=
  ⟨by decide, by decide,
    claim_C7_amended (fun _ => none) (strLit "hello\n\nworld")
      (by decide) (by decide)⟩
